import Mathlib

/-!
# Verification of the office-scheduler branch-and-bound solver

Shallow embedding of the custom branch-and-bound solver of the
`office-scheduler` repository (`officeScheduler/simple_bnb_solver.py`,
`officeScheduler/pulp_utils.py`, `officeScheduler/PeopleAndSets.py`,
`officeScheduler/Schedule.py`) and proofs about it.

The PuLP library is an external dependency of the repository; the small
fragment of its data model that the repository manipulates (affine
constraints with a sense and a name, a problem holding an objective and a
name-indexed ordered collection of constraints, `LpConstraint.copy`,
`LpConstraint.changeRHS`, `LpProblem.__iadd__`) is embedded here following
PuLP's documented semantics:
* a constraint stores its terms together with `constant = -(right-hand side)`,
  and `pl.value(constraint)` evaluates `terms + constant`;
* `LpConstraint.copy` copies terms, constant and sense but drops the name;
* adding a named constraint whose name is already present replaces the
  binding in place (dictionary assignment); adding an unnamed constraint
  records it under a fresh auto-generated name (`_C%d`), which is never
  equal to any name the repository itself ever assigns or looks up; auto
  names are modelled by a separate constructor, and freshness by taking
  one more than the largest auto index in use.

The LP solver is the repository's "LP oracle": it is modelled as an
arbitrary function from problems to a status plus a variable assignment.
-/

namespace OfficeScheduler

/-! ### Kernel-computable rational arithmetic

The Lean core implementations of `Rat.add`, `Rat.mul`, … do not reduce
inside the kernel, so the embedding uses the `mkRat` normal form for its
arithmetic and cross-multiplied integer comparisons for its orders; each
operation is proved equal to the Mathlib one, so universal theorems can
use the ordinary algebraic vocabulary while concrete runs still evaluate
by `decide`. -/

/-- Addition on `ℚ`, in a form the kernel evaluates. -/
def qAdd (a b : ℚ) : ℚ := mkRat (a.num * b.den + b.num * a.den) (a.den * b.den)

/-- Multiplication on `ℚ`, in a form the kernel evaluates. -/
def qMul (a b : ℚ) : ℚ := mkRat (a.num * b.num) (a.den * b.den)

/-- Negation on `ℚ`, in a form the kernel evaluates. -/
def qNeg (a : ℚ) : ℚ := mkRat (-a.num) a.den

/-- The embedding of an integer into `ℚ`, in a form the kernel evaluates. -/
def qOfInt (z : ℤ) : ℚ := mkRat z 1

/-- `a ≤ b` on `ℚ` as a kernel-evaluable Boolean. -/
def qLeB (a b : ℚ) : Bool := decide (a.num * b.den ≤ b.num * a.den)

/-- `a < b` on `ℚ` as a kernel-evaluable Boolean. -/
def qLtB (a b : ℚ) : Bool := decide (a.num * b.den < b.num * a.den)


/-- PuLP constraint senses (`pl.LpConstraintLE/GE/EQ`). -/
inductive LpSense where
  | le | ge | eq
  deriving DecidableEq, Repr

/-- Key of the `LpProblem.constraints` dictionary: either a name the code
assigned explicitly, or a PuLP auto-generated name (`_C%d`).  Auto names are
never equal to names the repository assigns or looks up (every explicit name
contains characters such as `_UB_day_`, `work_day` or blanks that `_C%d`
lacks), so they are kept apart by the type. -/
inductive CName where
  | named (s : String)
  | auto (k : ℕ)
  deriving DecidableEq, Repr

/-- A PuLP `LpConstraint` without its dictionary name: affine terms over
variable names, the stored constant (equal to the negated right-hand side for
the constraints this repository builds) and the sense. -/
structure LpCon where
  terms : List (String × ℚ)
  constant : ℚ
  sense : LpSense
  deriving DecidableEq, Repr

/-- An entry of the `LpProblem.constraints` ordered dictionary. -/
structure NamedCon where
  name : CName
  con : LpCon
  deriving DecidableEq, Repr

/-- Evaluate an affine term list at an assignment. -/
def evalTerms (a : String → ℚ) (ts : List (String × ℚ)) : ℚ :=
  ts.foldl (fun acc t => qAdd acc (qMul t.2 (a t.1))) 0

/-- `pl.value(constraint)`: the stored expression, i.e. LHS − RHS. -/
def LpCon.value (c : LpCon) (a : String → ℚ) : ℚ :=
  qAdd (evalTerms a c.terms) c.constant

/-- The right-hand side of a constraint as PuLP reports it. -/
def LpCon.rhs (c : LpCon) : ℚ := qNeg c.constant

/-- Sum of the coefficients times values, without the constant: the
"evaluated left-hand side" of a constraint. -/
def LpCon.lhs (c : LpCon) (a : String → ℚ) : ℚ := evalTerms a c.terms

/-- `LpConstraint.copy`: terms, constant and sense survive, the name does
not (PuLP: `return LpConstraint(self, self.sense)`). -/
def NamedCon.copy (nc : NamedCon) : LpCon := nc.con

/-- `LpConstraint.changeRHS(r)`: sets `constant := -r`. -/
def LpCon.changeRHS (c : LpCon) (r : ℚ) : LpCon := { c with constant := qNeg r }

/-- A PuLP `LpProblem` as used by this repository: an objective expression
and the ordered, name-keyed constraint dictionary.  The variable collection
is derived from the expressions, as PuLP's `problem.variables()` does. -/
structure LpProblem where
  objective : List (String × ℚ)
  constraints : List NamedCon
  deriving DecidableEq, Repr

/-- First-occurrence deduplication (Python dictionaries keep the position of
the first insertion of a key), with the set of already-seen keys as an
accumulator. -/
def uniqueKeysAux : List String → List String → List String
  | _, [] => []
  | seen, a :: t =>
      if a ∈ seen then uniqueKeysAux seen t else a :: uniqueKeysAux (a :: seen) t

/-- First-occurrence deduplication. -/
def uniqueKeys (l : List String) : List String := uniqueKeysAux [] l

/-- `problem.variables()`: every variable name referenced by the objective or
a constraint, each once.  (PuLP returns them sorted by name; no property
proved here depends on the order, only on membership.) -/
def LpProblem.varNames (p : LpProblem) : List String :=
  uniqueKeys (p.objective.map Prod.fst ++
    p.constraints.flatMap (fun nc => nc.con.terms.map Prod.fst))

/-- Dictionary lookup `problem.constraints[name]`. -/
def LpProblem.lookupCon (p : LpProblem) (n : CName) : Option LpCon :=
  (p.constraints.find? (fun nc => nc.name = n)).map NamedCon.con

/-- One more than the largest auto index in use: an unused auto name.
(PuLP searches `_C1, _C2, …` for the first name not in the dictionary;
only unusedness is observable, not the numeral.) -/
def CName.autoBound : CName → ℕ
  | .auto k => k + 1
  | .named _ => 0

def freshAuto (cs : List NamedCon) : ℕ :=
  cs.foldl (fun m nc => max m nc.name.autoBound) 0

/-- `problem += constraint` for a constraint carrying an explicit name:
dictionary assignment, replacing in place when the name is present. -/
def LpProblem.addNamed (p : LpProblem) (s : String) (c : LpCon) : LpProblem :=
  if p.constraints.any (fun nc => nc.name = CName.named s) then
    { p with constraints :=
        p.constraints.map fun nc =>
          if nc.name = CName.named s then ⟨nc.name, c⟩ else nc }
  else
    { p with constraints := p.constraints ++ [⟨CName.named s, c⟩] }

/-- `problem += constraint` for an unnamed constraint (a `copy`): it is
recorded under a fresh auto-generated name. -/
def LpProblem.addUnnamed (p : LpProblem) (c : LpCon) : LpProblem :=
  { p with constraints := p.constraints ++ [⟨CName.auto (freshAuto p.constraints), c⟩] }

/-- `LpProblem.copy()` copies the constraint dictionary; the copy is
deep enough for the uses here because the repository never mutates a
constraint in place after adding it (it mutates fresh `copy()`s). -/
def LpProblem.copy (p : LpProblem) : LpProblem := p

/-! ## `officeScheduler/PeopleAndSets.py` -/

/-- `Person`: a uid and the availability vector (`dateList[i]` true iff the
person can work on day `i+1`). -/
structure Person where
  uid : String
  dateList : List Bool
  deriving DecidableEq, Repr

/-- `SetConstraintType` enumeration.  (`UNINITIALIZED` in the source; the
Lean constructor is abbreviated.) -/
inductive SetConstraintType where
  | uninit | department | synergy
  deriving DecidableEq, Repr

/-- `SetConstraint` record (`personList` holds member uids). -/
structure SetConstraint where
  sid : String
  constraintType : SetConstraintType
  personList : List String
  low_bound : ℤ
  up_bound : ℤ
  deriving DecidableEq, Repr

/-- Outcome of running a Python constructor / function that may raise. -/
inductive PyErr where
  /-- The `SchedulerClassConstError` exception that
  `officeScheduler/PeopleAndSets.py` defines (and documents as the error
  raised on invalid bounds). -/
  | classConstError (message : String)
  /-- A Python `NameError`: the raised expression refers to an undefined
  name, so the `raise` statement itself fails with `NameError` carrying
  that name. -/
  | nameError (undefinedName : String)
  /-- A Python `KeyError` on a dictionary lookup. -/
  | keyError (key : String)
  /-- A Python `TypeError` (e.g. arithmetic on `None`). -/
  | typeError
  /-- The `raise Exception(...)` calls of the repository. -/
  | exception (message : String)
  deriving DecidableEq, Repr

/-- `SetConstraint.__init__` of `officeScheduler/PeopleAndSets.py`.
The type check `isinstance(constraintType, SetConstraintType)` always
passes here because the embedding is typed.  The bounds check is the
source's `low_bound>=0 and (low_bound <= up_bound or up_bound == -1)`;
on failure the source executes `raise SchedulerPrecondError(...)`, but the
name `SchedulerPrecondError` is not defined anywhere in that module (the
module defines `SchedulerClassConstError`), so evaluating the `raise`
statement itself fails with `NameError`. -/
def SetConstraint.init (sid : String) (constraintType : SetConstraintType)
    (personList : List String) (low_bound up_bound : ℤ) :
    Except PyErr SetConstraint :=
  if low_bound ≥ 0 ∧ (low_bound ≤ up_bound ∨ up_bound = -1) then
    .ok ⟨sid, constraintType, personList, low_bound, up_bound⟩
  else
    .error (.nameError "SchedulerPrecondError")

/-! ## `officeScheduler/pulp_utils.py` -/

/-- `SCHEDULE_VAR_PREFIX = 'Schedule'`. -/
def scheduleVarHead : String := "Schedule"

/-- `SYNERGY_VAR_PREFIX = 'Synergy'`. -/
def synergyVarHead : String := "Synergy"

/-- Name of the decision variable `x[uid][day]` as created by
`pl.LpVariable.dicts(SCHEDULE_VAR_PREFIX, (PEOPLE, DAYS), ...)`. -/
def xVarName (uid : String) (day : ℕ) : String :=
  scheduleVarHead ++ "_" ++ uid ++ "_" ++ toString day

/-- Name of the auxiliary variable `y[sid][day]`. -/
def yVarName (sid : String) (day : ℕ) : String :=
  synergyVarHead ++ "_" ++ sid ++ "_" ++ toString day

/-- The availability constraint name
`'{0} can\'t work on day {1}.'.format(person.uid, j)`. -/
def availConName (uid : String) (day : ℕ) : String :=
  uid ++ " can\x27t work on day " ++ toString day ++ "."

/-- `'{0}_UB_day_{1}'.format(set_constraint.sid, j)`. -/
def ubConName (sid : String) (day : ℕ) : String :=
  sid ++ "_UB_day_" ++ toString day

/-- `'{0}_LB_day_{1}'.format(set_constraint.sid, j)`. -/
def lbConName (sid : String) (day : ℕ) : String :=
  sid ++ "_LB_day_" ++ toString day

/-- The availability constraint `x[uid][day] <= 0` (stored, PuLP-style, as
terms plus constant compared to `0`). -/
def availCon (uid : String) (day : ℕ) : LpCon :=
  ⟨[(xVarName uid day, 1)], 0, .le⟩

/-- Days `1 .. num_days` (`DAYS = range(1, num_days + 1)`). -/
def daysRange (num_days : ℕ) : List ℕ := (List.range num_days).map (· + 1)

/-- The availability constraints added by `build_scheduling_lp` lines 44-48:
one `x[uid][j] <= 0` constraint per person and unavailable day, person-major.
Availability is read as `int(person.dateList[j - 1])`; the caller
`buildSchedulingLp` guards the list accesses. -/
def availabilityCons (num_days : ℕ) (people : List Person) : List NamedCon :=
  people.flatMap fun p =>
    (daysRange num_days).filterMap fun j =>
      if p.dateList.getD (j - 1) true then none
      else some ⟨.named (availConName p.uid j), availCon p.uid j⟩

/-- The per-day upper-bound constraint of a department:
`lpSum(x[uid][j] for uid in personList) <= up_bound`. -/
def deptUbCon (sc : SetConstraint) (j : ℕ) : LpCon :=
  ⟨sc.personList.map (fun uid => (xVarName uid j, 1)), qNeg (qOfInt sc.up_bound), .le⟩

/-- The per-day lower-bound constraint of a department:
`lpSum(x[uid][j] for uid in personList) >= low_bound`. -/
def deptLbCon (sc : SetConstraint) (j : ℕ) : LpCon :=
  ⟨sc.personList.map (fun uid => (xVarName uid j, 1)), qNeg (qOfInt sc.low_bound), .ge⟩

/-- The synergy count constraint `lpSum(y[sid][j] for j in DAYS) >= low_bound`. -/
def synergyCountCon (sc : SetConstraint) (num_days : ℕ) : LpCon :=
  ⟨(daysRange num_days).map (fun j => (yVarName sc.sid j, 1)), qNeg (qOfInt sc.low_bound), .ge⟩

/-- The synergy coupling constraint for day `j`:
`lpSum(x[uid][j]) >= len(personList) * y[sid][j]`, stored as
`lpSum(x) - len * y >= 0`. -/
def synergyCoupleCon (sc : SetConstraint) (j : ℕ) : LpCon :=
  ⟨sc.personList.map (fun uid => (xVarName uid j, 1)) ++
     [(yVarName sc.sid j, qNeg (qOfInt sc.personList.length))], 0, .ge⟩

/-- The constraints contributed by one set constraint (lines 50-70 of
`pulp_utils.py`); an `UNINITIALIZED` type hits the `raise Exception` branch. -/
def setConstraintCons (num_days : ℕ) (sc : SetConstraint) :
    Except PyErr (List NamedCon) :=
  match sc.constraintType with
  | .department =>
      .ok ((if sc.up_bound > -1 then
              (daysRange num_days).map fun j =>
                ⟨CName.named (ubConName sc.sid j), deptUbCon sc j⟩
            else []) ++
           ((daysRange num_days).map fun j =>
              ⟨CName.named (lbConName sc.sid j), deptLbCon sc j⟩))
  | .synergy =>
      .ok (⟨CName.named ("Team " ++ sc.sid ++ " all present at least " ++
              toString sc.low_bound ++ " days"), synergyCountCon sc num_days⟩ ::
           ((daysRange num_days).map fun j =>
              ⟨CName.named ("Team " ++ sc.sid ++ " all present on day " ++
                 toString j ++ " if assigned to be"), synergyCoupleCon sc j⟩))
  | .uninit =>
      .error (.exception ("Invalid constraintType field for set constraint with id " ++ sc.sid))

/-- `build_scheduling_lp(num_days, people, set_constraints)`.

The guard reproduces the runtime failures of the source: accessing
`person.dateList[j - 1]` beyond the end of the list raises `IndexError`,
and `x[person_uid]` for a uid that is not a person raises `KeyError`; the
Python build crashes exactly when the guard fails.  The objective sums
`x[uid][j]` over the distinct person uids (a duplicated uid denotes the
same dictionary slot) and all days.  Constraints are added in source
order: availability constraints, then per-set-constraint blocks.
Duplicate constraint names replace earlier bindings, as Python dictionary
assignment does. -/
def buildSchedulingLp (num_days : ℕ) (people : List Person)
    (set_constraints : List SetConstraint) : Except PyErr LpProblem :=
  if people.any (fun p => p.dateList.length < num_days) then
    .error (.exception "IndexError: dateList shorter than the horizon")
  else if set_constraints.any (fun sc =>
      sc.personList.any (fun uid => ¬ people.any (fun p => p.uid = uid))) then
    .error (.keyError "person uid missing from the x variable dictionary")
  else do
    let uids := uniqueKeys (people.map Person.uid)
    let objective : List (String × ℚ) :=
      uids.flatMap fun uid =>
        (daysRange num_days).map fun j => (xVarName uid j, 1)
    let base : LpProblem := ⟨objective, []⟩
    let withAvail :=
      (availabilityCons num_days people).foldl
        (fun p nc => match nc.name with
          | .named s => p.addNamed s nc.con
          | .auto _ => p) base
    let prob ← set_constraints.foldlM
      (fun p sc => do
        let cons ← setConstraintCons num_days sc
        return cons.foldl
          (fun q nc => match nc.name with
            | .named s => q.addNamed s nc.con
            | .auto _ => q) p)
      withAvail
    return prob

/-- `is_integral(problem)`: every variable's current value is an integer
(`var.value() == int(var.value())`). -/
def isIntegral (p : LpProblem) (a : String → ℚ) : Bool :=
  p.varNames.all fun v => (a v).den = 1

/-- `extract_solution(problem)` under assignment `a`: the dictionary of
variable names to values (the problem has just been solved to `Optimal`,
so the `'Not Solved'` early return does not fire). -/
def extractSolution (p : LpProblem) (a : String → ℚ) : List (String × ℚ) :=
  p.varNames.map fun v => (v, a v)

/-- Association-list lookup, i.e. `dict[key]` as an `Option`. -/
def lookupA (s : List (String × ℚ)) (k : String) : Option ℚ :=
  (s.find? (fun kv => kv.1 = k)).map Prod.snd

/-! ## `officeScheduler/simple_bnb_solver.py` -/

/-- `DecisionType` enumeration. -/
inductive DecisionType where
  | personDay | synergyDay | deptDay
  deriving DecidableEq, Repr

/-- `BranchingOption`: decision type, entity id, 1-based day, and (for
`DEPT_DAY` only) the interval bounds; the source leaves the bounds `None`
for the other decision types. -/
structure BranchingOption where
  decision_type : DecisionType
  entity_id : String
  day : ℕ
  lower_bound : Option ℤ := none
  upper_bound : Option ℤ := none
  deriving DecidableEq, Repr

/-- `BranchingDecision`: an option with a chosen direction and, for
`DEPT_DAY`, the threshold. -/
structure BranchingDecision where
  branching_option : BranchingOption
  direction : ℕ
  threshold : Option ℤ := none
  deriving DecidableEq, Repr

/-- Status strings the PuLP solver can report (`pl.LpStatus[...]`). -/
inductive LpStatus where
  | optimal | infeasible | unbounded | notSolved | undefined
  deriving DecidableEq, Repr

/-- The LP oracle's answer: a status and the variable values it stored on
the problem (meaningful when the status is `optimal`). -/
structure OracleResult where
  status : LpStatus
  assign : String → ℚ

/-- `BranchingDecision.add_constraint_to_problem(problem)`.

* `PERSON_DAY`: scan `problem.variables()` for `Schedule_{uid}_{day}`; when
  found, add the named equality `var == direction` and stop; when no
  variable matches, the loop falls through and the problem is unchanged.
* `SYNERGY_DAY`: same with `Synergy_{sid}_{day}` and the other names.
* `DEPT_DAY`, direction 0: copy `{sid}_UB_day_{day}` (falling back to
  `{sid}_LB_day_{day}` with the sense forced to `<=`), set its RHS to the
  threshold, add the (unnamed) copy.  A missing fallback raises `KeyError`.
* `DEPT_DAY`, direction ≠ 0: copy `{sid}_LB_day_{day}`, set its RHS to
  threshold + 1, add the copy.
A `DEPT_DAY` decision without a threshold would crash `changeRHS`
(`TypeError`, arithmetic on `None`). -/
def addConstraintToProblem (d : BranchingDecision) (p : LpProblem) :
    Except PyErr LpProblem :=
  match d.branching_option.decision_type with
  | .personDay =>
      let uid := d.branching_option.entity_id
      let day := d.branching_option.day
      let var_name := xVarName uid day
      if var_name ∈ p.varNames then
        .ok (p.addNamed
          ("Make_" ++ uid ++ "_" ++ (if d.direction = 1 then "" else "not_") ++
            "work_day_" ++ toString day)
          ⟨[(var_name, 1)], qNeg (qOfInt d.direction), .eq⟩)
      else .ok p
  | .synergyDay =>
      let sid := d.branching_option.entity_id
      let day := d.branching_option.day
      let var_name := yVarName sid day
      if var_name ∈ p.varNames then
        .ok (p.addNamed
          (if d.direction = 1 then
             "Make_" ++ sid ++ "_all_work_day_" ++ toString day
           else
             "Allow_" ++ sid ++ "_not_all_work_day_" ++ toString day)
          ⟨[(var_name, 1)], qNeg (qOfInt d.direction), .eq⟩)
      else .ok p
  | .deptDay =>
      let sid := d.branching_option.entity_id
      let day := d.branching_option.day
      match d.threshold with
      | none => .error .typeError
      | some t =>
          if d.direction = 0 then
            match p.lookupCon (.named (ubConName sid day)) with
            | some c => .ok (p.addUnnamed (c.changeRHS (qOfInt t)))
            | none =>
                match p.lookupCon (.named (lbConName sid day)) with
                | some c =>
                    .ok (p.addUnnamed (({ c with sense := .le }).changeRHS (qOfInt t)))
                | none => .error (.keyError (lbConName sid day))
          else
            match p.lookupCon (.named (lbConName sid day)) with
            | some c => .ok (p.addUnnamed (c.changeRHS (qOfInt (t + 1))))
            | none => .error (.keyError (lbConName sid day))

/-- The rounding applied to every variable value by `BnbNode.branch`:
`0 if var.varValue <= 0.5 else 1`. -/
def roundVal (q : ℚ) : ℚ := if qLeB q (mkRat 1 2) then 0 else 1

/-- The rounded assignment (every variable of the problem is overwritten;
evaluating any expression of the problem afterwards sees the rounded
values). -/
def roundedAssign (a : String → ℚ) : String → ℚ := fun v => roundVal (a v)

/-- The violation test of `BnbNode.branch` lines 179-180:
`(value > 0 and sense == LE) or (value < 0 and sense == GE)` where
`value = pl.value(constraint)`. -/
def violatedB (c : LpCon) (a : String → ℚ) : Bool :=
  (qLtB 0 (c.value a) && decide (c.sense = LpSense.le)) ||
  (qLtB (c.value a) 0 && decide (c.sense = LpSense.ge))

/-- Objective value `pl.value(self.lp.objective)` at the current variable
values. -/
def LpProblem.objValue (p : LpProblem) (a : String → ℚ) : ℚ :=
  evalTerms a p.objective

/-- A node of the search tree as the DFS stack needs it: its LP relaxation
and its remaining branching options.  (The `decisions` list and `depth`
are debugging data the search never reads.) -/
structure Node where
  lp : LpProblem
  branching_options : List BranchingOption
  deriving DecidableEq, Repr

/-- What one call of `BnbNode.branch` leaves behind: the node's mutated
`lp_value` / `feasible_value` / `feasible_solution` fields and the list of
children. -/
structure BranchResult where
  lp_value : ℚ
  feasible_value : ℚ
  feasible_solution : Option (List (String × ℚ))
  children : List Node
  deriving DecidableEq, Repr

/-- Lines 163-189 of `BnbNode.branch`: the mutation of `lp_value`,
`feasible_value` and `feasible_solution` once the oracle has answered
`Optimal` with the assignment `a`.  An integral assignment is recorded
directly; otherwise every variable value is rounded and, when no
constraint of the LP is violated by the rounded values, the rounded
solution is recorded — and `lp_value` is overwritten by the objective
evaluated at the rounded values (line 187). -/
def branchFeasibility (lp : LpProblem) (a : String → ℚ) :
    ℚ × ℚ × Option (List (String × ℚ)) :=
  let lpv := lp.objValue a
  if isIntegral lp a then
    (lpv, lpv, some (extractSolution lp a))
  else
    let r := roundedAssign a
    if lp.constraints.any (fun nc => violatedB nc.con r) then
      (lpv, 0, none)
    else
      (lp.objValue r, lp.objValue r, some (extractSolution lp r))

/-- Lines 191-226 of `BnbNode.branch`: draw one option (`random.choice`
picks index `pick % opts.length`; an empty list raises `IndexError`),
remove it, and build the children.  `PERSON_DAY` / `SYNERGY_DAY` options
yield two children fixing the variable to 0 and 1; a `DEPT_DAY` option
with a collapsed interval (`hi - lo <= 0`) yields no children at all, and
otherwise the interval is split at `threshold = lo + (hi - lo) // 2` into
the two half-interval children, each receiving the corresponding new
`DEPT_DAY` option appended to its remaining options. -/
def branchChildren (lp : LpProblem) (opts : List BranchingOption)
    (pick : ℕ) : Except PyErr (List Node) := do
  match opts with
  | [] => throw (.exception "IndexError: random.choice on empty list")
  | o₀ :: _ =>
      let i := pick % opts.length
      let bo := opts.getD i o₀
      let newOpts := opts.eraseIdx i
      match bo.decision_type with
      | .personDay | .synergyDay =>
          let l₀ ← addConstraintToProblem ⟨bo, 0, none⟩ lp.copy
          let l₁ ← addConstraintToProblem ⟨bo, 1, none⟩ lp.copy
          return [⟨l₀, newOpts⟩, ⟨l₁, newOpts⟩]
      | .deptDay =>
          match bo.lower_bound, bo.upper_bound with
          | some lo, some hi =>
              if hi - lo ≤ 0 then
                return []
              else
                let thr := lo + (hi - lo) / 2
                let l₀ ← addConstraintToProblem ⟨bo, 0, some thr⟩ lp.copy
                let l₁ ← addConstraintToProblem ⟨bo, 1, some thr⟩ lp.copy
                return [⟨l₀, newOpts ++ [⟨.deptDay, bo.entity_id, bo.day, some lo, some thr⟩]⟩,
                        ⟨l₁, newOpts ++ [⟨.deptDay, bo.entity_id, bo.day, some (thr + 1), some hi⟩]⟩]
          | _, _ => throw .typeError

/-- `BnbNode.branch()` for a node with LP `lp` and remaining options
`opts`, given the oracle's answer `res` for `lp` and the index `pick`
drawn by `random.choice` (reduced modulo the number of options; an empty
options list raises `IndexError`).

Mirrors lines 147-226 of `simple_bnb_solver.py`:
* non-`Optimal`, non-`Undefined` statuses return no children with the
  node's value fields still at their `__init__` zeros;
* `Undefined` raises;
* otherwise `lp_value` is set from the solved values; an integral solution
  is recorded as feasible; a fractional one is rounded, and when no
  constraint is violated the rounded solution is recorded — including the
  overwrite of `lp_value` by the objective evaluated at the rounded
  values (line 187);
* finally one option is removed and children are built, two for
  `PERSON_DAY` / `SYNERGY_DAY`, and for `DEPT_DAY` either none (collapsed
  interval) or the two half-interval children. -/
def branch (lp : LpProblem) (opts : List BranchingOption)
    (res : OracleResult) (pick : ℕ) : Except PyErr BranchResult := do
  match res.status with
  | .infeasible | .unbounded | .notSolved =>
      return ⟨0, 0, none, []⟩
  | .undefined =>
      throw (.exception "Solver fails with status Undefined")
  | .optimal =>
      let st := branchFeasibility lp res.assign
      let cs ← branchChildren lp opts pick
      return ⟨st.1, st.2.1, st.2.2, cs⟩

/-- The root branching options built by `SimpleBnbSolver.solve` lines 33-54:
one `PERSON_DAY` option per person and day; for every `DEPARTMENT` set
constraint one `DEPT_DAY` option per day carrying `[low_bound, ub]` with a
negative upper bound normalized to `len(personList)`; for every `SYNERGY`
set constraint one `SYNERGY_DAY` option per day; other types contribute
nothing (`pass`). -/
def rootOptions (people : List Person) (set_constraints : List SetConstraint)
    (num_days : ℕ) : List BranchingOption :=
  (people.flatMap fun p =>
    (daysRange num_days).map fun day =>
      ⟨.personDay, p.uid, day, none, none⟩) ++
  (set_constraints.flatMap fun sc =>
    match sc.constraintType with
    | .department =>
        let ub := if sc.up_bound < 0 then (sc.personList.length : ℤ) else sc.up_bound
        (daysRange num_days).map fun day =>
          ⟨.deptDay, sc.sid, day, some sc.low_bound, some ub⟩
    | .synergy =>
        (daysRange num_days).map fun day =>
          ⟨.synergyDay, sc.sid, day, none, none⟩
    | .uninit => [])

/-- The members of the `SolverStatus` enumeration that
`simple_bnb_solver.py` uses (the enumeration itself lives in the repository
module `Solver` from which the file imports it; these are exactly the
members the solver assigns). -/
inductive SolverStatus where
  | unsolved | outOfTime | feasible | infeasible | optimal
  deriving DecidableEq, Repr

/-- The terminal status computation, `SimpleBnbSolver.solve` lines 99-109:
the time branch fires iff `elapsed_time > time_limit and time_limit > 0`,
the best-value test is `best_value <= 0` in both branches.  The root LP's
solver status is not consulted. -/
def updateStatus (elapsed_time time_limit best_value : ℚ) : SolverStatus :=
  if qLtB time_limit elapsed_time && qLtB 0 time_limit then
    if qLeB best_value 0 then .outOfTime else .feasible
  else
    if qLeB best_value 0 then .infeasible else .optimal

/-- The mutable engine state across iterations of the `while stack:` loop.
`lastElapsed` is the Python local `elapsed_time` (last deadline reading;
its pre-loop value is never read because the loop runs at least once —
the stack starts with the root). -/
structure SearchState where
  best_value : ℚ
  best_solution : Option (List (String × ℚ))
  stack : List Node
  iter : ℕ
  lastElapsed : ℚ
  deriving DecidableEq, Repr

/-- The solver's environment: the LP oracle, the stream of indices drawn
by `random.choice` (one per iteration, reduced modulo the option count),
the stream of `time.time() - start_time` readings (one per iteration) and
the time limit. -/
structure Env where
  oracle : LpProblem → OracleResult
  choice : ℕ → ℕ
  elapsed : ℕ → ℚ
  time_limit : ℚ

/-- Result of one pass through the loop body. -/
inductive StepOut where
  | exits (s : SearchState)
  | next (s : SearchState)
  | fail (e : PyErr)
  deriving DecidableEq, Repr

/-- One iteration of `SimpleBnbSolver.solve` lines 65-90: test the loop
condition, read the clock and honor the deadline, pop, branch, update the
incumbent exactly when the node's `feasible_value` beats it, prune by
bound or childlessness, otherwise push the children (the last-appended
child ends up on top of the stack, so the pushed block is the reversed
children list). -/
def loopStep (env : Env) (s : SearchState) : StepOut :=
  match s.stack with
  | [] => .exits s
  | node :: rest =>
      let e := env.elapsed s.iter
      if qLtB env.time_limit e then .exits { s with lastElapsed := e }
      else
        match branch node.lp node.branching_options
            (env.oracle node.lp) (env.choice s.iter) with
        | .error err => .fail err
        | .ok br =>
            let bv := if qLtB s.best_value br.feasible_value then br.feasible_value
                      else s.best_value
            let bs := if qLtB s.best_value br.feasible_value then br.feasible_solution
                      else s.best_solution
            if qLeB br.lp_value bv || br.children.isEmpty then
              .next ⟨bv, bs, rest, s.iter + 1, e⟩
            else
              .next ⟨bv, bs, br.children.reverse ++ rest, s.iter + 1, e⟩

/-- Errors that abort or give up on a run of the search loop. -/
inductive RunErr where
  | py (e : PyErr)
  | fuelOut
  deriving Repr

/-- Run the loop to completion, with fuel (the Python loop may diverge;
every property proved below is about runs that do terminate). -/
def runLoop (env : Env) : ℕ → SearchState → Except RunErr SearchState
  | 0, _ => .error .fuelOut
  | fuel + 1, s =>
      match loopStep env s with
      | .exits s' => .ok s'
      | .next s' => runLoop env fuel s'
      | .fail e => .error (.py e)

/-! ## `officeScheduler/Schedule.py` -/

/-- Python `str.split('_')` (single-character separator), accumulator form. -/
def splitUnderscoreAux : List Char → List Char → List String
  | acc, [] => [String.mk acc.reverse]
  | acc, c :: cs =>
      if c = '_' then String.mk acc.reverse :: splitUnderscoreAux [] cs
      else splitUnderscoreAux (c :: acc) cs

/-- `varName.split('_')`. -/
def splitUnderscore (s : String) : List String := splitUnderscoreAux [] s.toList

/-- Does `pat` match at the head of the character list? -/
def headMatches : List Char → List Char → Bool
  | [], _ => true
  | _ :: _, [] => false
  | p :: ps, c :: cs => p = c && headMatches ps cs

/-- Substring occurrence over character lists. -/
def containsSubAux (pat : List Char) : List Char → Bool
  | [] => pat.isEmpty
  | c :: cs => headMatches pat (c :: cs) || containsSubAux pat cs

/-- Python `pat in s` for nonempty `pat`. -/
def strContains (s pat : String) : Bool := containsSubAux pat.toList s.toList

/-- The numeric value of a decimal digit. -/
def digitVal (c : Char) : Option ℕ :=
  if '0' ≤ c ∧ c ≤ '9' then some (c.toNat - '0'.toNat) else none

def parseNatAux : ℕ → List Char → Option ℕ
  | acc, [] => some acc
  | acc, c :: cs =>
      match digitVal c with
      | some d => parseNatAux (acc * 10 + d) cs
      | none => none

/-- Python `int(s)` for the strings the schedule variables produce: a
nonempty digit string; anything else raises `ValueError` (`none`). -/
def pyParseNat (s : String) : Option ℕ :=
  if s.isEmpty then none else parseNatAux 0 s.toList

/-- Python `int(x)` on a number: truncation toward zero. -/
def pyInt (q : ℚ) : ℤ := q.num.tdiv q.den

/-- The `assignments` numpy array: its dimensions and entries. -/
structure ScheduleMat where
  rows : ℕ
  cols : ℕ
  entry : ℕ → ℕ → ℤ

/-- Write one entry (numpy element assignment; callers stay in bounds). -/
def ScheduleMat.write (m : ScheduleMat) (row col : ℕ) (v : ℤ) : ScheduleMat :=
  { m with entry := fun i j => if i = row ∧ j = col then v else m.entry i j }

/-- Split a `'Schedule'`-containing variable name as
`Schedule.buildFromSolutionVariables` does: `name_parts = varName.split('_')`,
`uid = name_parts[1]`, `day = int(name_parts[2])`.  A missing part raises
`IndexError` and a non-numeric day raises `ValueError` (`none`). -/
def parseScheduleVar (varName : String) : Option (String × ℕ) :=
  let parts := splitUnderscore varName
  match parts.get? 1, parts.get? 2 with
  | some uid, some ds => (pyParseNat ds).map fun d => (uid, d)
  | _, _ => none

/-- Parse every `'Schedule'`-containing key of the variables dictionary
into `(uid, day, value)`; any unparsable key is the Python `IndexError`
or `ValueError` crash. -/
def parseEntries : List (String × ℚ) → Option (List (String × ℕ × ℚ))
  | [] => some []
  | kv :: t =>
      match parseScheduleVar kv.1, parseEntries t with
      | some ud, some es => some ((ud.1, ud.2, kv.2) :: es)
      | _, _ => none

/-- The cell `(row, column)` the write for one parsed entry targets:
`row = person_uids.index(uid)` (`none` models `ValueError` when absent),
`column = day - 1`, with numpy wrapping the `-1` of `day = 0` to the last
column. -/
def schedTarget (person_uids : List String) (num_days : ℕ)
    (e : String × ℕ × ℚ) : Option (ℕ × ℕ) :=
  (person_uids.indexOf? e.1).map fun row =>
    (row, if e.2.1 = 0 then num_days - 1 else e.2.1 - 1)

/-- One write of the second loop of `buildFromSolutionVariables`:
`assignments[person_uids.index(uid), day - 1] = int(value)`.  `none`
models `ValueError` on a missing uid and the `IndexError` of wrapping on
a zero-column array. -/
def schedWriteStep (person_uids : List String) (num_days : ℕ)
    (m : ScheduleMat) (e : String × ℕ × ℚ) : Option ScheduleMat :=
  match person_uids.indexOf? e.1 with
  | none => none
  | some row =>
      if e.2.1 = 0 then
        if num_days = 0 then none
        else some (m.write row (num_days - 1) (pyInt e.2.2))
      else some (m.write row (e.2.1 - 1) (pyInt e.2.2))

/-- Run the writes of the second loop in order. -/
def applyWrites (person_uids : List String) (num_days : ℕ) :
    ScheduleMat → List (String × ℕ × ℚ) → Option ScheduleMat
  | m, [] => some m
  | m, e :: t =>
      match schedWriteStep person_uids num_days m e with
      | some m' => applyWrites person_uids num_days m' t
      | none => none

/-- `Schedule.buildFromSolutionVariables(variablesDict)` for a `Schedule`
whose `people` field holds `people`.

* `variablesDict is None`: the assignments array becomes
  `-1 * np.ones((max(len(people), 10), 10))` and the method returns.
* Otherwise the `'Schedule'`-containing keys are split to find the number
  of days (their maximum day index) and then each such key writes
  `int(value)` at `[people-index of uid, day - 1]` into a `len(people) ×
  num_days` array initialized to `-1`.  A day index `0` would write to
  column `-1`, which numpy wraps to the last column.  `none` models the
  exceptions: unsplittable keys, a uid absent from `people`
  (`list.index` raises `ValueError`), the wrap on a zero-column array,
  and the `self.people += Person(...)` crash on the empty-`people` path. -/
def buildFromSolutionVariables (people : List Person)
    (variablesDict : Option (List (String × ℚ))) : Option ScheduleMat :=
  match variablesDict with
  | none => some ⟨max people.length 10, 10, fun _ _ => -1⟩
  | some dict =>
      match parseEntries (dict.filter fun kv => strContains kv.1 "Schedule") with
      | none => none
      | some entries =>
          let num_days := entries.foldl (fun m e => max m e.2.1) 0
          if people.isEmpty then
            if entries.isEmpty then some ⟨0, num_days, fun _ _ => -1⟩ else none
          else
            applyWrites (people.map Person.uid) num_days
              ⟨people.length, num_days, fun _ _ => -1⟩ entries

/-! ## The solver façade `SimpleBnbSolver.solve` -/

/-- Everything `SimpleBnbSolver.solve` leaves behind: the final status,
incumbent, the final engine state and the returned best `Schedule`. -/
structure SolveResult where
  status : SolverStatus
  best_value : ℚ
  best_solution : Option (List (String × ℚ))
  finalState : SearchState
  schedule : ScheduleMat

/-- `SimpleBnbSolver.solve()`: build the root options and the root LP, run
the DFS loop, compute the terminal status from the last deadline reading
and the incumbent value, and materialize the best schedule. -/
def solve (people : List Person) (set_constraints : List SetConstraint)
    (num_days : ℕ) (env : Env) (fuel : ℕ) : Except RunErr SolveResult :=
  match buildSchedulingLp num_days people set_constraints with
  | .error e => .error (.py e)
  | .ok lp =>
      match runLoop env fuel
          ⟨0, none, [⟨lp, rootOptions people set_constraints num_days⟩], 0, 0⟩ with
      | .error e => .error e
      | .ok sF =>
          match buildFromSolutionVariables people sF.best_solution with
          | none => .error (.py .typeError)
          | some sched =>
              .ok ⟨updateStatus sF.lastElapsed env.time_limit sF.best_value,
                   sF.best_value, sF.best_solution, sF, sched⟩

/-- The root LP of a run (when the build succeeds). -/
def rootLp (people : List Person) (set_constraints : List SetConstraint)
    (num_days : ℕ) : Except PyErr LpProblem :=
  buildSchedulingLp num_days people set_constraints

/-! ### Concrete instances used by the claim witnesses -/

/-- A one-variable LP with a department lower-bound constraint, used by
witnesses. -/
def lpW : LpProblem :=
  ⟨[("Schedule_A_1", 1)], [⟨.named "dept_LB_day_1", ⟨[("Schedule_A_1", 1)], 0, .ge⟩⟩]⟩

def optsW : List BranchingOption := [⟨.deptDay, "dept", 1, some 0, some 2⟩]

def resW : OracleResult := ⟨.optimal, fun _ => 0⟩

/-- The stack of the state a `loopStep` transition leads to, when it is a
`next` transition. -/
def StepOut.nextStack : StepOut → Option (List Node)
  | .next s => some s.stack
  | _ => none

def envW9 : Env := ⟨fun _ => ⟨.optimal, fun _ => 0⟩, fun _ => 0, fun _ => 1, 30⟩

def nodeW9 : Node := ⟨lpW, [⟨.deptDay, "dept", 1, some 2, some 2⟩]⟩

def sW9 : SearchState := ⟨0, none, [nodeW9], 0, 0⟩

/-- An oracle answer with the fractional assignment `1/2` everywhere. -/
def resW4 : OracleResult := ⟨.optimal, fun _ => mkRat 1 2⟩

/-- The branch result of `lpW` under the fractional answer `resW4`. -/
def brW4 : BranchResult := (branch lpW optsW resW4 0).toOption.getD ⟨0, 0, none, []⟩

def nodeW2 : Node := ⟨lpW, optsW⟩

def sW2 : SearchState := ⟨0, none, [nodeW2], 0, 0⟩

/-- The branch result of the single `loopStep` iteration from `sW2`. -/
def brW2 : BranchResult :=
  (branch nodeW2.lp nodeW2.branching_options (envW9.oracle nodeW2.lp)
    (envW9.choice sW2.iter)).toOption.getD ⟨0, 0, none, []⟩

def sW2next : SearchState := ⟨0, none, [], 1, 1⟩

def peopleC1 : List Person := [⟨"A", [false]⟩]

/-- An environment whose oracle always answers `Optimal` with the all-zero
assignment (the true optimum of the `peopleC1` root LP), reading clock 1
against time limit 30. -/
def envC1 : Env := ⟨fun _ => ⟨.optimal, fun _ => 0⟩, fun _ => 0, fun _ => 1, 30⟩

/-- The result of the `peopleC1` run. -/
def rC1 : SolveResult :=
  (solve peopleC1 [] 1 envC1 10).toOption.getD
    ⟨.unsolved, 0, none, ⟨0, none, [], 0, 0⟩, ⟨0, 0, fun _ _ => -1⟩⟩

/-- The root LP of the `peopleC1` instance. -/
def lpC7 : LpProblem := (buildSchedulingLp 1 peopleC1 []).toOption.getD ⟨[], []⟩

def resC7 : OracleResult := ⟨.optimal, fun _ => 0⟩

/-- The branch result at the `peopleC1` root under the all-zero optimum. -/
def brC7 : BranchResult :=
  (branch lpC7 (rootOptions peopleC1 [] 1) resC7 0).toOption.getD ⟨0, 0, none, []⟩

def sC7 : List (String × ℚ) := [("Schedule_A_1", 0)]

/-- The schedule matrix built from `sC7`. -/
def mC7 : ScheduleMat :=
  (buildFromSolutionVariables peopleC1 (some sC7)).getD ⟨0, 0, fun _ _ => 0⟩

/-! ## Bridge lemmas and claims -/

theorem qAdd_eq (a b : ℚ) : qAdd a b = a + b := (Rat.add_def' a b).symm

theorem qMul_eq (a b : ℚ) : qMul a b = a * b := by
  rw [qMul, Rat.mul_def, Rat.normalize_eq_mkRat]

theorem qNeg_eq (a : ℚ) : qNeg a = -a := by
  rw [qNeg, Rat.neg_def, Rat.mkRat_eq_divInt]

theorem qOfInt_eq (z : ℤ) : qOfInt z = (z : ℚ) := Rat.mkRat_one z

theorem qLeB_iff (a b : ℚ) : qLeB a b = true ↔ a ≤ b := by
  rw [qLeB, decide_eq_true_iff, Rat.le_def]

theorem qLtB_iff (a b : ℚ) : qLtB a b = true ↔ a < b := by
  rw [qLtB, decide_eq_true_iff, Rat.lt_def]


/-- **C8.**  Constructing a set constraint with a negative lower bound, or a
finite upper bound (≠ −1) strictly below the lower bound, fails before any
search or LP build — but not with the documented model-validation error:
the constructor's `raise SchedulerPrecondError(...)` names an undefined
class, so the failure is a `NameError`, never the `SchedulerClassConstError`
the module documents for this purpose.  The second conjunct shows the
failure condition is exactly the claimed one; the third that the
documented error is never produced. -/
theorem c8_invalid_set_constraint_bounds :
    (SetConstraint.init "D" SetConstraintType.department [] (-1) (-1) =
       Except.error (PyErr.nameError "SchedulerPrecondError")) ∧
    (∀ sid ct pl (lb ub : ℤ),
       (∃ e, SetConstraint.init sid ct pl lb ub = Except.error e) ↔
         (lb < 0 ∨ (ub ≠ -1 ∧ ub < lb))) ∧
    (∀ sid ct pl (lb ub : ℤ) m,
       SetConstraint.init sid ct pl lb ub ≠ Except.error (PyErr.classConstError m)) := by
  refine ⟨rfl, ?_, ?_⟩
  · intro sid ct pl lb ub
    unfold SetConstraint.init
    split_ifs with h
    · constructor
      · rintro ⟨e, he⟩
        exact he.elim
      · intro hb
        exact absurd hb (by omega)
    · constructor
      · intro _
        omega
      · intro _
        exact ⟨_, rfl⟩
  · intro sid ct pl lb ub m
    unfold SetConstraint.init
    split_ifs with h
    · exact fun he => Except.noConfusion he
    · intro he
      injection he with he
      exact PyErr.noConfusion he

/-- **C10.**  When the incumbent assignment is `None`, the schedule built
from it is a `max(len(people), 10) × 10` matrix with every entry `−1`,
independent of the number of days in the horizon (which does not even
reach the materializer on this path). -/
theorem c10_none_incumbent_schedule_shape (people : List Person) (m : ScheduleMat)
    (h : buildFromSolutionVariables people none = some m) :
    m.rows = max people.length 10 ∧ m.cols = 10 ∧ ∀ i j, m.entry i j = -1 := by
  simp only [buildFromSolutionVariables] at h
  injection h with h
  subst h
  exact ⟨rfl, rfl, fun _ _ => rfl⟩

/-- Witness for `c10_none_incumbent_schedule_shape` at a one-person list. -/
theorem c10_witness :
    (⟨10, 10, fun _ _ => (-1 : ℤ)⟩ : ScheduleMat).rows =
        max ([⟨"A", [false]⟩] : List Person).length 10 ∧
    (⟨10, 10, fun _ _ => (-1 : ℤ)⟩ : ScheduleMat).cols = 10 ∧
    (⟨10, 10, fun _ _ => (-1 : ℤ)⟩ : ScheduleMat).entry 2 7 = -1 := by
  have h := c10_none_incumbent_schedule_shape [⟨"A", [false]⟩]
    ⟨10, 10, fun _ _ => -1⟩ rfl
  exact ⟨h.1, h.2.1, h.2.2 2 7⟩


/-- When the oracle answers `Optimal`, `branch` succeeds exactly when the
child construction does, and copies the feasibility state into the result. -/
theorem branch_optimal_eq (lp : LpProblem) (opts : List BranchingOption)
    (res : OracleResult) (pick : ℕ) (hres : res.status = .optimal) :
    branch lp opts res pick = (branchChildren lp opts pick).map
      (fun cs => ⟨(branchFeasibility lp res.assign).1,
                  (branchFeasibility lp res.assign).2.1,
                  (branchFeasibility lp res.assign).2.2, cs⟩) := by
  unfold branch
  rw [hres]
  cases h : branchChildren lp opts pick <;> simp [h, Except.map]

/-- The two `DEPT_DAY` outcomes of `BnbNode.branch`'s child construction:
a collapsed interval yields no children; a proper interval yields the two
half-interval children. -/
theorem branchChildren_deptDay (lp : LpProblem) (opts : List BranchingOption)
    (pick : ℕ) (sid : String) (day : ℕ) (lo hi : ℤ)
    (hbo : opts.get? (pick % opts.length) =
      some ⟨.deptDay, sid, day, some lo, some hi⟩)
    (hLB : (lp.lookupCon (.named (lbConName sid day))).isSome = true) :
    (hi ≤ lo → branchChildren lp opts pick = .ok []) ∧
    (lo < hi → ∃ l₀ l₁, branchChildren lp opts pick =
       .ok [⟨l₀, opts.eraseIdx (pick % opts.length) ++
              [⟨.deptDay, sid, day, some lo, some (lo + (hi - lo) / 2)⟩]⟩,
            ⟨l₁, opts.eraseIdx (pick % opts.length) ++
              [⟨.deptDay, sid, day, some (lo + (hi - lo) / 2 + 1), some hi⟩]⟩]) := by
  obtain ⟨cLB, hcLB⟩ := Option.isSome_iff_exists.mp hLB
  cases opts with
  | nil => simp at hbo
  | cons o₀ os =>
      have hgetD : (o₀ :: os).getD (pick % (o₀ :: os).length) o₀ =
          ⟨.deptDay, sid, day, some lo, some hi⟩ := by
        rw [List.getD_eq_getElem?_getD, ← List.get?_eq_getElem?, hbo]; rfl
      constructor
      · intro hle
        unfold branchChildren
        dsimp only
        rw [hgetD]
        dsimp only
        rw [if_pos (by omega : hi - lo ≤ 0)]
        rfl
      · intro hlt
        unfold branchChildren
        dsimp only
        rw [hgetD]
        dsimp only
        rw [if_neg (by omega : ¬ hi - lo ≤ 0)]
        unfold addConstraintToProblem
        dsimp only [LpProblem.copy]
        cases hub : lp.lookupCon (.named (ubConName sid day)) with
        | none =>
            rw [hcLB]
            refine ⟨lp.addUnnamed (LpCon.changeRHS { cLB with sense := LpSense.le }
                     (qOfInt (lo + (hi - lo) / 2))),
                   lp.addUnnamed (cLB.changeRHS (qOfInt (lo + (hi - lo) / 2 + 1))), ?_⟩
            rfl
        | some cUB =>
            rw [hcLB]
            refine ⟨lp.addUnnamed (cUB.changeRHS (qOfInt (lo + (hi - lo) / 2))),
                   lp.addUnnamed (cLB.changeRHS (qOfInt (lo + (hi - lo) / 2 + 1))), ?_⟩
            rfl



/-- **C5.**  Branching on a `DEPT_DAY` option `[lo, hi]`: a collapsed
interval (`hi ≤ lo`) yields no children; otherwise exactly two children
are produced, splitting at `mid = lo + (hi − lo)/2` (integer division),
the lower child's remaining options being the parent's minus the branched
option plus a new `DeptDay` option `[lo, mid]`, and the upper child's the
same plus `[mid+1, hi]`. -/
theorem c5_deptDay_split (lp : LpProblem) (opts : List BranchingOption)
    (res : OracleResult) (pick : ℕ) (sid : String) (day : ℕ) (lo hi : ℤ)
    (hres : res.status = .optimal)
    (hbo : opts.get? (pick % opts.length) =
      some ⟨.deptDay, sid, day, some lo, some hi⟩)
    (hLB : (lp.lookupCon (.named (lbConName sid day))).isSome = true) :
    (hi ≤ lo → ∃ br, branch lp opts res pick = .ok br ∧ br.children = []) ∧
    (lo < hi → ∃ br, branch lp opts res pick = .ok br ∧
        br.children.map Node.branching_options =
          [opts.eraseIdx (pick % opts.length) ++
             [⟨.deptDay, sid, day, some lo, some (lo + (hi - lo) / 2)⟩],
           opts.eraseIdx (pick % opts.length) ++
             [⟨.deptDay, sid, day, some (lo + (hi - lo) / 2 + 1), some hi⟩]]) := by
  have h := branchChildren_deptDay lp opts pick sid day lo hi hbo hLB
  rw [branch_optimal_eq lp opts res pick hres]
  constructor
  · intro hle
    rw [h.1 hle]
    exact ⟨_, rfl, rfl⟩
  · intro hlt
    obtain ⟨l₀, l₁, hc⟩ := h.2 hlt
    rw [hc]
    exact ⟨_, rfl, rfl⟩

/-- Witness for `c5_deptDay_split`: splitting `[0, 2]` at `mid = 1`. -/
theorem c5_witness :
    (branch lpW optsW resW 0).toOption.map
        (fun br => br.children.map Node.branching_options) =
      some [[⟨.deptDay, "dept", 1, some 0, some 1⟩],
            [⟨.deptDay, "dept", 1, some 2, some 2⟩]] := by
  obtain ⟨br, hbr, hch⟩ :=
    (c5_deptDay_split lpW optsW resW 0 "dept" 1 0 2 rfl (by decide) (by decide)).2
      (by decide)
  rw [hbr]
  simp only [Except.toOption, Option.map_some']
  rw [hch]
  decide

/-- **C9.**  When the randomly selected option of a popped node is a
`DEPT_DAY` whose interval satisfies `hi ≤ lo`, `branch` returns an empty
children list, and the loop iteration pushes nothing: the node leaves the
stack for good, so none of its other remaining options is ever tried from
it. -/
theorem c9_collapsed_deptDay_leaf (env : Env) (s : SearchState) (node : Node)
    (rest : List Node) (sid : String) (day : ℕ) (lo hi : ℤ)
    (hstack : s.stack = node :: rest)
    (htime : qLtB env.time_limit (env.elapsed s.iter) = false)
    (hres : (env.oracle node.lp).status = .optimal)
    (hbo : node.branching_options.get?
        (env.choice s.iter % node.branching_options.length) =
      some ⟨.deptDay, sid, day, some lo, some hi⟩)
    (hLB : (node.lp.lookupCon (.named (lbConName sid day))).isSome = true)
    (hcol : hi ≤ lo) :
    (∃ br, branch node.lp node.branching_options (env.oracle node.lp)
        (env.choice s.iter) = .ok br ∧ br.children = []) ∧
    (∃ s', loopStep env s = .next s' ∧ s'.stack = rest) := by
  have h := (branchChildren_deptDay node.lp node.branching_options
      (env.choice s.iter) sid day lo hi hbo hLB).1 hcol
  have hb : branch node.lp node.branching_options (env.oracle node.lp)
      (env.choice s.iter) =
      .ok ⟨(branchFeasibility node.lp (env.oracle node.lp).assign).1,
           (branchFeasibility node.lp (env.oracle node.lp).assign).2.1,
           (branchFeasibility node.lp (env.oracle node.lp).assign).2.2, []⟩ := by
    rw [branch_optimal_eq _ _ _ _ hres, h]
    rfl
  refine ⟨⟨_, hb, rfl⟩, ?_⟩
  simp [loopStep, hstack, htime, hb]



/-- Witness for `c9_collapsed_deptDay_leaf` at the collapsed interval
`[2, 2]`. -/
theorem c9_witness :
    (branch nodeW9.lp nodeW9.branching_options (envW9.oracle nodeW9.lp)
        (envW9.choice sW9.iter)).toOption.map BranchResult.children = some [] ∧
    StepOut.nextStack (loopStep envW9 sW9) = some [] := by
  obtain ⟨⟨br, hbr, hch⟩, ⟨s', hs', hst⟩⟩ :=
    c9_collapsed_deptDay_leaf envW9 sW9 nodeW9 [] "dept" 1 2 2 rfl (by decide) rfl
      (by decide) (by decide) (by decide)
  constructor
  · rw [hbr]
    exact congrArg some hch
  · rw [hs']
    exact congrArg some hst



/-- Named lookups are unaffected by adding an unnamed (auto-named)
constraint. -/
theorem lookupCon_addUnnamed (p : LpProblem) (c : LpCon) (nm : String) :
    (p.addUnnamed c).lookupCon (.named nm) = p.lookupCon (.named nm) := by
  unfold LpProblem.addUnnamed LpProblem.lookupCon
  dsimp only
  rw [List.find?_append]
  cases h : p.constraints.find? (fun nc => nc.name = CName.named nm) with
  | some nc => simp [h]
  | none => simp [h]

/-- Every constraint of the problem survives adding an unnamed
constraint. -/
theorem mem_constraints_addUnnamed (p : LpProblem) (c : LpCon) (nc : NamedCon)
    (h : nc ∈ p.constraints) : nc ∈ (p.addUnnamed c).constraints :=
  List.mem_append_left _ h

/-- **C6.**  Materializing a `DEPT_DAY` branching decision with threshold
`thr`: for the lower half (direction 0) the `{sid}_UB_day_{d}` constraint
is copied with its right-hand side set to `thr` and the copy added — or,
when it is absent, `{sid}_LB_day_{d}` is copied with its sense changed to
`≤`; for the upper half (direction 1) `{sid}_LB_day_{d}` is copied with
right-hand side `thr + 1` and added.  In all cases the copy enters under a
fresh auto-generated name, so the original constraint remains in the
problem and every named lookup is unchanged. -/
theorem c6_deptDay_decision_materialization (p : LpProblem) (sid : String)
    (day : ℕ) (thr : ℤ) (olo ohi : Option ℤ) :
    (∀ cUB, p.lookupCon (.named (ubConName sid day)) = some cUB →
       addConstraintToProblem ⟨⟨.deptDay, sid, day, olo, ohi⟩, 0, some thr⟩ p =
         .ok (p.addUnnamed (cUB.changeRHS (qOfInt thr)))) ∧
    (p.lookupCon (.named (ubConName sid day)) = none →
     ∀ cLB, p.lookupCon (.named (lbConName sid day)) = some cLB →
       addConstraintToProblem ⟨⟨.deptDay, sid, day, olo, ohi⟩, 0, some thr⟩ p =
         .ok (p.addUnnamed (LpCon.changeRHS { cLB with sense := LpSense.le }
                (qOfInt thr)))) ∧
    (∀ cLB, p.lookupCon (.named (lbConName sid day)) = some cLB →
       addConstraintToProblem ⟨⟨.deptDay, sid, day, olo, ohi⟩, 1, some thr⟩ p =
         .ok (p.addUnnamed (cLB.changeRHS (qOfInt (thr + 1))))) ∧
    (∀ c nm, (p.addUnnamed c).lookupCon (.named nm) = p.lookupCon (.named nm)) ∧
    (∀ c nc, nc ∈ p.constraints → nc ∈ (p.addUnnamed c).constraints) := by
  refine ⟨?_, ?_, ?_, fun c nm => lookupCon_addUnnamed p c nm,
    fun c nc h => mem_constraints_addUnnamed p c nc h⟩
  · intro cUB hub
    unfold addConstraintToProblem
    dsimp only
    rw [if_pos rfl, hub]
  · intro hub cLB hlb
    unfold addConstraintToProblem
    dsimp only
    rw [if_pos rfl, hub, hlb]
  · intro cLB hlb
    unfold addConstraintToProblem
    dsimp only
    rw [if_neg (by decide : ¬ (1 : ℕ) = 0), hlb]

/-- Witness for `c6_deptDay_decision_materialization`: the upper-half copy
of `dept_LB_day_1` with right-hand side `2`, and the lower-half fallback
copy with sense transposed to `≤` and right-hand side `1`. -/
theorem c6_witness :
    addConstraintToProblem ⟨⟨.deptDay, "dept", 1, some 0, some 2⟩, 1, some 1⟩ lpW =
      .ok (lpW.addUnnamed (LpCon.changeRHS ⟨[("Schedule_A_1", 1)], 0, .ge⟩ (qOfInt 2))) ∧
    addConstraintToProblem ⟨⟨.deptDay, "dept", 1, some 0, some 2⟩, 0, some 1⟩ lpW =
      .ok (lpW.addUnnamed (LpCon.changeRHS ⟨[("Schedule_A_1", 1)], 0, .le⟩ (qOfInt 1))) := by
  have h := c6_deptDay_decision_materialization lpW "dept" 1 1 (some 0) (some 2)
  constructor
  · exact h.2.2.1 ⟨[("Schedule_A_1", 1)], 0, .ge⟩ (by decide)
  · exact h.2.1 (by decide) ⟨[("Schedule_A_1", 1)], 0, .ge⟩ (by decide)



/-- The violation test of lines 179-180 holds exactly when a `≤` constraint
has its evaluated left-hand side above its right-hand side, or a `≥`
constraint has it below. -/
theorem violatedB_iff (c : LpCon) (a : String → ℚ) :
    violatedB c a = true ↔
      (c.sense = LpSense.le ∧ c.rhs < c.lhs a) ∨
      (c.sense = LpSense.ge ∧ c.lhs a < c.rhs) := by
  unfold violatedB
  rw [Bool.or_eq_true, Bool.and_eq_true, Bool.and_eq_true,
      qLtB_iff, qLtB_iff, decide_eq_true_iff, decide_eq_true_iff]
  unfold LpCon.value LpCon.rhs LpCon.lhs
  rw [qAdd_eq, qNeg_eq]
  constructor
  · rintro (⟨hv, hs⟩ | ⟨hv, hs⟩)
    · exact Or.inl ⟨hs, by linarith⟩
    · exact Or.inr ⟨hs, by linarith⟩
  · rintro (⟨hs, hv⟩ | ⟨hs, hv⟩)
    · exact Or.inl ⟨by linarith, hs⟩
    · exact Or.inr ⟨by linarith, hs⟩

/-- The rounding of line 172 in the claim's phrasing. -/
theorem roundVal_eq (q : ℚ) : roundVal q = if q ≤ 1 / 2 then 0 else 1 := by
  have hhalf : mkRat 1 2 = (1 : ℚ) / 2 := by
    rw [Rat.mkRat_eq_div]
    norm_num
  unfold roundVal
  by_cases h : q ≤ 1 / 2
  · rw [if_pos ((qLeB_iff q (mkRat 1 2)).mpr (hhalf ▸ h)), if_pos h]
  · rw [if_neg (fun hb => h (hhalf ▸ (qLeB_iff q (mkRat 1 2)).mp hb)), if_neg h]

/-- A successful `branch` on an `Optimal` oracle answer carries exactly the
`branchFeasibility` fields. -/
theorem branch_ok_fields (lp : LpProblem) (opts : List BranchingOption)
    (res : OracleResult) (pick : ℕ) (br : BranchResult)
    (hres : res.status = .optimal)
    (hok : branch lp opts res pick = .ok br) :
    br.lp_value = (branchFeasibility lp res.assign).1 ∧
    br.feasible_value = (branchFeasibility lp res.assign).2.1 ∧
    br.feasible_solution = (branchFeasibility lp res.assign).2.2 := by
  rw [branch_optimal_eq lp opts res pick hres] at hok
  cases h : branchChildren lp opts pick with
  | error e => rw [h] at hok; exact Except.noConfusion hok
  | ok cs =>
      rw [h] at hok
      injection hok with hok
      rw [← hok]
      exact ⟨rfl, rfl, rfl⟩

/-- **C4.**  When the LP optimum is not all-integral, the rounding
heuristic replaces each value by 0 when it is at most 0.5 and by 1
otherwise; a `≤` constraint is violated exactly when its evaluated LHS
exceeds its RHS and a `≥` constraint exactly when its LHS is below its
RHS; and the rounded assignment is recorded as `feasible_solution` — with
its objective value as `feasible_value` — if and only if no constraint of
the node's LP is violated. -/
theorem c4_rounding_heuristic (lp : LpProblem) (opts : List BranchingOption)
    (res : OracleResult) (pick : ℕ) (br : BranchResult)
    (hres : res.status = .optimal)
    (hint : isIntegral lp res.assign = false)
    (hok : branch lp opts res pick = .ok br) :
    (∀ v, roundedAssign res.assign v = if res.assign v ≤ 1 / 2 then 0 else 1) ∧
    (∀ c : LpCon, violatedB c (roundedAssign res.assign) = true ↔
       (c.sense = LpSense.le ∧ c.rhs < c.lhs (roundedAssign res.assign)) ∨
       (c.sense = LpSense.ge ∧ c.lhs (roundedAssign res.assign) < c.rhs)) ∧
    ((∀ nc ∈ lp.constraints, violatedB nc.con (roundedAssign res.assign) = false) ↔
       br.feasible_solution = some (extractSolution lp (roundedAssign res.assign))) ∧
    (br.feasible_solution = some (extractSolution lp (roundedAssign res.assign)) →
       br.feasible_value = lp.objValue (roundedAssign res.assign)) := by
  obtain ⟨hlpv, hfv, hfs⟩ := branch_ok_fields lp opts res pick br hres hok
  refine ⟨fun v => roundVal_eq (res.assign v), fun c => violatedB_iff c _, ?_, ?_⟩
  · unfold branchFeasibility at hfs
    rw [hint] at hfs
    simp only [Bool.false_eq_true, if_false] at hfs
    cases hany : lp.constraints.any (fun nc => violatedB nc.con (roundedAssign res.assign)) with
    | true =>
        rw [hany] at hfs
        simp only [if_true] at hfs
        constructor
        · intro hnone
          obtain ⟨nc, hmem, hv⟩ := List.any_eq_true.mp hany
          exact absurd (hnone nc hmem) (by rw [hv]; simp)
        · intro hsome
          rw [hfs] at hsome
          exact Option.noConfusion hsome
    | false =>
        rw [hany] at hfs
        simp only [Bool.false_eq_true, if_false] at hfs
        constructor
        · intro _
          exact hfs
        · intro _ nc hmem
          have := List.any_eq_false.mp hany nc hmem
          simpa using this
  · intro hsome
    unfold branchFeasibility at hfs hfv
    rw [hint] at hfs hfv
    simp only [Bool.false_eq_true, if_false] at hfs hfv
    cases hany : lp.constraints.any (fun nc => violatedB nc.con (roundedAssign res.assign)) with
    | true =>
        rw [hany] at hfs
        simp only [if_true] at hfs
        rw [hfs] at hsome
        exact Option.noConfusion hsome
    | false =>
        rw [hany] at hfv
        simp only [Bool.false_eq_true, if_false] at hfv
        exact hfv



/-- Witness for `c4_rounding_heuristic`: rounding the all-`1/2` fractional
optimum of `lpW` to zero satisfies the lower-bound constraint `x ≥ 0`, so
the rounded assignment is accepted. -/
theorem c4_witness :
    roundedAssign resW4.assign "Schedule_A_1" =
      (if resW4.assign "Schedule_A_1" ≤ 1 / 2 then 0 else 1) ∧
    brW4.feasible_solution = some (extractSolution lpW (roundedAssign resW4.assign)) ∧
    brW4.feasible_value = lpW.objValue (roundedAssign resW4.assign) := by
  have h := c4_rounding_heuristic lpW optsW resW4 0 brW4 rfl (by decide) rfl
  have hfs := h.2.2.1.mp (by decide)
  exact ⟨h.1 "Schedule_A_1", hfs, h.2.2.2 hfs⟩



/-- **C3** (failing input).  For the node LP `lpW` the oracle answers
`Optimal` with objective value `1/2` (assignment `x = 1/2`); the
assignment is not integral, the rounding heuristic accepts the rounded
assignment (`x = 0`), and line 187 then overwrites `lp_value` with the
objective evaluated at the rounded values: the processed node ends with
`lp_value = 0`, not the oracle's optimal objective value `1/2`. -/
theorem c3_lp_value_overwritten_on_rounding :
    resW4.status = .optimal ∧
    lpW.objValue resW4.assign = mkRat 1 2 ∧
    isIntegral lpW resW4.assign = false ∧
    (branch lpW optsW resW4 0).toOption.map BranchResult.feasible_solution =
      some (some [("Schedule_A_1", 0)]) ∧
    (branch lpW optsW resW4 0).toOption.map BranchResult.lp_value = some 0 ∧
    (0 : ℚ) ≠ mkRat 1 2 := by
  decide



/-- An `exits` transition never changes the incumbent value. -/
theorem loopStep_exits_bv (env : Env) (s s₂ : SearchState)
    (h : loopStep env s = .exits s₂) : s₂.best_value = s.best_value := by
  rcases hst : s.stack with _ | ⟨node, rest⟩
  · simp only [loopStep, hst, StepOut.exits.injEq] at h
    rw [← h]
  · rcases htime : qLtB env.time_limit (env.elapsed s.iter) with _ | _
    · rcases hbr : branch node.lp node.branching_options (env.oracle node.lp)
        (env.choice s.iter) with e | br
      · simp only [loopStep, hst, htime, hbr, Bool.false_eq_true, if_false] at h
        exact StepOut.noConfusion h
      · simp only [loopStep, hst, htime, hbr, Bool.false_eq_true, if_false] at h
        split at h <;> split at h <;> exact StepOut.noConfusion h
    · simp only [loopStep, hst, htime, if_true, StepOut.exits.injEq] at h
      rw [← h]

/-- A `next` transition never decreases the incumbent value. -/
theorem loopStep_next_bv_mono (env : Env) (s s₂ : SearchState)
    (h : loopStep env s = .next s₂) : s.best_value ≤ s₂.best_value := by
  rcases hst : s.stack with _ | ⟨node, rest⟩
  · simp only [loopStep, hst] at h
    exact StepOut.noConfusion h
  · rcases htime : qLtB env.time_limit (env.elapsed s.iter) with _ | _
    · rcases hbr : branch node.lp node.branching_options (env.oracle node.lp)
        (env.choice s.iter) with e | br
      · simp only [loopStep, hst, htime, hbr, Bool.false_eq_true, if_false] at h
        exact StepOut.noConfusion h
      · simp only [loopStep, hst, htime, hbr, Bool.false_eq_true, if_false] at h
        split at h
        · rename_i hq
          split at h <;> simp only [StepOut.next.injEq] at h <;> rw [← h] <;>
            exact le_of_lt ((qLtB_iff _ _).mp hq)
        · split at h <;> simp only [StepOut.next.injEq] at h <;> rw [← h]
    · simp only [loopStep, hst, htime, if_true] at h
      exact StepOut.noConfusion h

/-- The incumbent value never decreases over a terminating run of the
search loop. -/
theorem runLoop_bv_mono (env : Env) :
    ∀ fuel t t', runLoop env fuel t = .ok t' → t.best_value ≤ t'.best_value := by
  intro fuel
  induction fuel with
  | zero =>
      intro t t' h
      exact Except.noConfusion h
  | succ n ih =>
      intro t t' h
      unfold runLoop at h
      cases hs : loopStep env t with
      | exits s₂ =>
          rw [hs] at h
          injection h with h
          rw [← h, loopStep_exits_bv env t s₂ hs]
      | next s₂ =>
          rw [hs] at h
          exact le_trans (loopStep_next_bv_mono env t s₂ hs) (ih s₂ t' h)
      | fail e => rw [hs] at h; exact Except.noConfusion h

/-- **C2.**  In every iteration that continues the loop, the incumbent
(value and solution) is replaced exactly when the popped node's
`feasible_value` exceeds `best_value`; a popped node whose `lp_value` is
at most the already-updated `best_value` pushes no children (the stack
shrinks to the remaining nodes); and `best_value` never decreases, per
step or across any terminating run. -/
theorem c2_incumbent_update_and_pruning (env : Env) (s s' : SearchState)
    (node : Node) (rest : List Node) (br : BranchResult)
    (hstack : s.stack = node :: rest)
    (hok : branch node.lp node.branching_options (env.oracle node.lp)
      (env.choice s.iter) = .ok br)
    (hstep : loopStep env s = .next s') :
    (s'.best_value =
      if br.feasible_value > s.best_value then br.feasible_value else s.best_value) ∧
    (s'.best_solution =
      if br.feasible_value > s.best_value then br.feasible_solution
      else s.best_solution) ∧
    (br.lp_value ≤ s'.best_value → s'.stack = rest) ∧
    s.best_value ≤ s'.best_value ∧
    (∀ fuel t t', runLoop env fuel t = .ok t' → t.best_value ≤ t'.best_value) := by
  have hcond : (qLtB s.best_value br.feasible_value = true) ↔
      br.feasible_value > s.best_value := qLtB_iff _ _
  rcases htime : qLtB env.time_limit (env.elapsed s.iter) with _ | _
  · simp only [loopStep, hstack, htime, hok, Bool.false_eq_true, if_false] at hstep
    split at hstep
    · rename_i hq
      have hgt : br.feasible_value > s.best_value := hcond.mp hq
      split at hstep <;> simp only [StepOut.next.injEq] at hstep <;> rw [← hstep]
      · exact ⟨(if_pos hgt).symm, (if_pos hgt).symm, fun _ => rfl,
          le_of_lt hgt, runLoop_bv_mono env⟩
      · rename_i hfail
        refine ⟨(if_pos hgt).symm, (if_pos hgt).symm,
          fun hle => absurd ?_ hfail, le_of_lt hgt, runLoop_bv_mono env⟩
        rw [Bool.or_eq_true]
        exact Or.inl ((qLeB_iff _ _).mpr hle)
    · rename_i hq
      have hngt : ¬ br.feasible_value > s.best_value := fun hgt => hq (hcond.mpr hgt)
      split at hstep <;> simp only [StepOut.next.injEq] at hstep <;> rw [← hstep]
      · exact ⟨(if_neg hngt).symm, (if_neg hngt).symm, fun _ => rfl,
          le_refl _, runLoop_bv_mono env⟩
      · rename_i hfail
        refine ⟨(if_neg hngt).symm, (if_neg hngt).symm,
          fun hle => absurd ?_ hfail, le_refl _, runLoop_bv_mono env⟩
        rw [Bool.or_eq_true]
        exact Or.inl ((qLeB_iff _ _).mpr hle)
  · simp only [loopStep, hstack, htime, if_true] at hstep
    exact StepOut.noConfusion hstep



/-- Witness for `c2_incumbent_update_and_pruning`: the single iteration
from `sW2` (integral optimum of value 0, so the incumbent stays 0 and the
node is pruned by bound). -/
theorem c2_witness :
    (sW2next.best_value =
      if brW2.feasible_value > sW2.best_value then brW2.feasible_value
      else sW2.best_value) ∧
    (brW2.lp_value ≤ sW2next.best_value → sW2next.stack = []) ∧
    sW2.best_value ≤ sW2next.best_value := by
  have h := c2_incumbent_update_and_pruning envW9 sW2 sW2next nodeW2 [] brW2
    rfl rfl (by decide)
  exact ⟨h.1, h.2.2.1, h.2.2.2.1⟩



/-- **C1** (counterexample).  One person, unavailable on the single day:
the root LP is solved to `Optimal` (value 0, the empty schedule is
feasible), the stack empties within the deadline and `best_value` stays 0
— yet the reported status is `Infeasible`, not the `Optimal` the claim
requires, and `Infeasible` is reported although the root LP was never
`Infeasible`. -/
theorem c1_counterexample :
    (solve peopleC1 [] 1 envC1 10).toOption.map SolveResult.status =
      some SolverStatus.infeasible ∧
    (solve peopleC1 [] 1 envC1 10).toOption.map SolveResult.best_value = some 0 ∧
    (solve peopleC1 [] 1 envC1 10).toOption.map
      (fun r => r.finalState.stack.isEmpty) = some true ∧
    (solve peopleC1 [] 1 envC1 10).toOption.map
      (fun r => qLeB r.finalState.lastElapsed envC1.time_limit) = some true ∧
    (buildSchedulingLp 1 peopleC1 []).toOption.map
      (fun lp => (envC1.oracle lp).status) = some LpStatus.optimal ∧
    SolverStatus.infeasible ≠ SolverStatus.optimal := by
  decide

/-- **C1** (amended).  Whenever the loop exits without triggering the
deadline branch of the status computation (`elapsed > limit` with
`limit > 0`) — in particular whenever the stack was emptied within the
deadline — the reported status is `Infeasible` exactly when
`best_value ≤ 0` and `Optimal` exactly when `best_value > 0`,
irrespective of the root LP's solver status. -/
theorem c1_amended_status_on_normal_exit (people : List Person)
    (scs : List SetConstraint) (num_days : ℕ) (env : Env) (fuel : ℕ)
    (r : SolveResult)
    (hok : solve people scs num_days env fuel = .ok r)
    (hnorm : r.finalState.lastElapsed ≤ env.time_limit ∨ env.time_limit ≤ 0) :
    (r.status = SolverStatus.infeasible ↔ r.best_value ≤ 0) ∧
    (r.status = SolverStatus.optimal ↔ 0 < r.best_value) := by
  unfold solve at hok
  rcases hbuild : buildSchedulingLp num_days people scs with e | lp <;>
    rw [hbuild] at hok <;> try dsimp only at hok
  · exact Except.noConfusion hok
  rcases hrun : runLoop env fuel
      ⟨0, none, [⟨lp, rootOptions people scs num_days⟩], 0, 0⟩ with e | sF <;>
    rw [hrun] at hok <;> try dsimp only at hok
  · exact Except.noConfusion hok
  rcases hsched : buildFromSolutionVariables people sF.best_solution with
      _ | sched <;> rw [hsched] at hok <;> try dsimp only at hok
  · exact Except.noConfusion hok
  injection hok with hok
  rw [← hok] at hnorm ⊢
  have hc : (qLtB env.time_limit sF.lastElapsed && qLtB 0 env.time_limit) =
      false := by
    rcases hnorm with h | h
    · have hf : qLtB env.time_limit sF.lastElapsed = false := by
        rw [Bool.eq_false_iff]
        intro hb
        exact absurd ((qLtB_iff _ _).mp hb) (not_lt.mpr h)
      rw [hf, Bool.false_and]
    · have hf : qLtB 0 env.time_limit = false := by
        rw [Bool.eq_false_iff]
        intro hb
        exact absurd ((qLtB_iff _ _).mp hb) (not_lt.mpr h)
      rw [hf, Bool.and_false]
  show (updateStatus sF.lastElapsed env.time_limit sF.best_value =
      SolverStatus.infeasible ↔ sF.best_value ≤ 0) ∧
    (updateStatus sF.lastElapsed env.time_limit sF.best_value =
      SolverStatus.optimal ↔ 0 < sF.best_value)
  unfold updateStatus
  rw [hc]
  simp only [Bool.false_eq_true, if_false]
  cases hbv : qLeB sF.best_value 0 with
  | true =>
      have hle := (qLeB_iff _ _).mp hbv
      simp only [if_true]
      exact ⟨⟨fun _ => hle, fun _ => trivial⟩,
        ⟨fun h => SolverStatus.noConfusion h, fun h => absurd hle (not_le.mpr h)⟩⟩
  | false =>
      have hgt : ¬ sF.best_value ≤ 0 := fun h => by
        rw [(qLeB_iff _ _).mpr h] at hbv
        exact Bool.noConfusion hbv
      simp only [Bool.false_eq_true, if_false]
      exact ⟨⟨fun h => SolverStatus.noConfusion h, fun h => absurd h hgt⟩,
        ⟨fun _ => lt_of_not_le hgt, fun _ => trivial⟩⟩

/-- Witness for `c1_amended_status_on_normal_exit` at the `peopleC1`
run. -/
theorem c1_amended_witness :
    (rC1.status = SolverStatus.infeasible ↔ rC1.best_value ≤ 0) ∧
    (rC1.status = SolverStatus.optimal ↔ 0 < rC1.best_value) := by
  refine c1_amended_status_on_normal_exit peopleC1 [] 1 envC1 10 rC1 rfl
    (Or.inl ?_)
  exact (qLeB_iff _ _).mp (by decide)



theorem headMatches_append_self (p r : List Char) :
    headMatches p (p ++ r) = true := by
  induction p with
  | nil => rfl
  | cons c ps ih => simp [headMatches, ih]

theorem containsSubAux_append_self (p r : List Char) :
    containsSubAux p (p ++ r) = true := by
  cases p with
  | nil =>
      cases r with
      | nil => rfl
      | cons c cs => rfl
  | cons c ps =>
      show containsSubAux (c :: ps) ((c :: ps) ++ r) = true
      rw [List.cons_append]
      show (headMatches (c :: ps) ((c :: ps) ++ r) || _) = true
      rw [headMatches_append_self, Bool.true_or]

theorem strContains_xVarName (uid : String) (day : ℕ) :
    strContains (xVarName uid day) "Schedule" = true := by
  show containsSubAux "Schedule".toList (xVarName uid day).toList = true
  have : (xVarName uid day).toList =
      "Schedule".toList ++ ("_" ++ uid ++ "_" ++ toString day).toList := by
    show (scheduleVarHead ++ "_" ++ uid ++ "_" ++ toString day).data =
      "Schedule".data ++ ("_" ++ uid ++ "_" ++ toString day).data
    simp only [String.data_append, List.append_assoc]
    rfl
  rw [this]
  exact containsSubAux_append_self _ _

theorem mem_uniqueKeysAux (x : String) :
    ∀ (seen l : List String), x ∈ uniqueKeysAux seen l ↔ x ∈ l ∧ x ∉ seen := by
  intro seen l
  induction l generalizing seen with
  | nil => simp [uniqueKeysAux]
  | cons a t ih =>
      by_cases ha : a ∈ seen
      · rw [uniqueKeysAux, if_pos ha, ih]
        constructor
        · rintro ⟨hx, hs⟩
          exact ⟨List.mem_cons_of_mem a hx, hs⟩
        · rintro ⟨hx, hs⟩
          rcases List.mem_cons.mp hx with rfl | hx
          · exact absurd ha hs
          · exact ⟨hx, hs⟩
      · rw [uniqueKeysAux, if_neg ha]
        constructor
        · intro hx
          rcases List.mem_cons.mp hx with rfl | hx
          · exact ⟨List.mem_cons_self _ _, ha⟩
          · obtain ⟨h1, h2⟩ := (ih (a :: seen)).mp hx
            exact ⟨List.mem_cons_of_mem a h1,
              fun hs => h2 (List.mem_cons_of_mem a hs)⟩
        · rintro ⟨hx, hs⟩
          rcases List.mem_cons.mp hx with rfl | hx
          · exact List.mem_cons_self _ _
          · by_cases hxa : x = a
            · subst hxa
              exact List.mem_cons_self _ _
            · exact List.mem_cons_of_mem _ ((ih (a :: seen)).mpr
                ⟨hx, fun hm => by
                  rcases List.mem_cons.mp hm with h | h
                  · exact hxa h
                  · exact hs h⟩)

theorem mem_uniqueKeys (x : String) (l : List String) :
    x ∈ uniqueKeys l ↔ x ∈ l := by
  rw [uniqueKeys, mem_uniqueKeysAux]
  simp

/-- A variable occurring in a constraint of the problem is one of the
problem's variables. -/
theorem mem_varNames_of_con (p : LpProblem) (nc : NamedCon) (x : String) (q : ℚ)
    (hnc : nc ∈ p.constraints) (hx : (x, q) ∈ nc.con.terms) :
    x ∈ p.varNames := by
  rw [LpProblem.varNames, mem_uniqueKeys]
  apply List.mem_append_right
  rw [List.mem_flatMap]
  exact ⟨nc, hnc, List.mem_map.mpr ⟨(x, q), hx, rfl⟩⟩

/-- Membership in an extracted solution dictionary. -/
theorem mem_extractSolution (lp : LpProblem) (a : String → ℚ) (kv : String × ℚ) :
    kv ∈ extractSolution lp a ↔ kv.1 ∈ lp.varNames ∧ kv.2 = a kv.1 := by
  rw [extractSolution, List.mem_map]
  constructor
  · rintro ⟨n, hn, rfl⟩
    exact ⟨hn, rfl⟩
  · rintro ⟨h1, h2⟩
    exact ⟨kv.1, h1, by rw [← h2]⟩

/-- Looking up a problem variable in the extracted dictionary returns its
assigned value. -/
theorem lookupA_extractSolution (lp : LpProblem) (a : String → ℚ) (x : String)
    (hx : x ∈ lp.varNames) : lookupA (extractSolution lp a) x = some (a x) := by
  rw [lookupA]
  have hsome : (List.find? (fun kv => kv.1 = x) (extractSolution lp a)).isSome = true := by
    rw [List.find?_isSome]
    exact ⟨(x, a x), (mem_extractSolution lp a (x, a x)).mpr ⟨hx, rfl⟩, by simp⟩
  obtain ⟨kv, hkv⟩ := Option.isSome_iff_exists.mp hsome
  have hmem := List.mem_of_find?_eq_some hkv
  have hpred := List.find?_some hkv
  have hkey : kv.1 = x := by simpa using hpred
  obtain ⟨_, hval⟩ := (mem_extractSolution lp a kv).mp hmem
  rw [hkv]
  simp only [Option.map_some']
  rw [hval, hkey]



/-- A successful write is a single cell assignment at the entry's target. -/
theorem schedWriteStep_some (u : List String) (n : ℕ) (m m' : ScheduleMat)
    (e : String × ℕ × ℚ) (h : schedWriteStep u n m e = some m') :
    ∃ rc, schedTarget u n e = some rc ∧ m' = m.write rc.1 rc.2 (pyInt e.2.2) := by
  unfold schedWriteStep at h
  cases hidx : u.indexOf? e.1 with
  | none => rw [hidx] at h; exact Option.noConfusion h
  | some row =>
      rw [hidx] at h
      try dsimp only at h
      by_cases hd : e.2.1 = 0
      · rw [if_pos hd] at h
        by_cases hn : n = 0
        · rw [if_pos hn] at h; exact Option.noConfusion h
        · rw [if_neg hn] at h
          injection h with h
          exact ⟨(row, n - 1), by simp [schedTarget, hidx, hd], h.symm⟩
      · rw [if_neg hd] at h
        injection h with h
        exact ⟨(row, e.2.1 - 1), by simp [schedTarget, hidx, hd], h.symm⟩

theorem ScheduleMat.write_entry_same (m : ScheduleMat) (r c : ℕ) (v : ℤ) :
    (m.write r c v).entry r c = v := by simp [ScheduleMat.write]

theorem ScheduleMat.write_entry_other (m : ScheduleMat) (r c i j : ℕ) (v : ℤ)
    (h : ¬(i = r ∧ j = c)) : (m.write r c v).entry i j = m.entry i j := by
  simp only [ScheduleMat.write]
  rw [if_neg h]

/-- The final value of a cell after running all writes: `z` when at least
one write targets the cell and every write targeting it writes `z`;
untouched when no write targets it. -/
theorem applyWrites_entry (u : List String) (n : ℕ) (i c : ℕ) (z : ℤ) :
    ∀ (es : List (String × ℕ × ℚ)) (m0 m : ScheduleMat),
      applyWrites u n m0 es = some m →
      (∀ e ∈ es, schedTarget u n e = some (i, c) → pyInt e.2.2 = z) →
      ((∃ e ∈ es, schedTarget u n e = some (i, c)) → m.entry i c = z) ∧
      ((∀ e ∈ es, schedTarget u n e ≠ some (i, c)) → m.entry i c = m0.entry i c) := by
  intro es
  induction es with
  | nil =>
      intro m0 m h _
      injection h with h
      constructor
      · rintro ⟨e, he, -⟩
        exact absurd he (List.not_mem_nil e)
      · intro _
        rw [← h]
  | cons e t ih =>
      intro m0 m h hall
      rw [applyWrites] at h
      cases hw : schedWriteStep u n m0 e with
      | none => rw [hw] at h; exact Option.noConfusion h
      | some m1 =>
          rw [hw] at h
          obtain ⟨rc, hrc, hm1⟩ := schedWriteStep_some u n m0 m1 e hw
          have ihres := ih m1 m h (fun e' he' => hall e' (List.mem_cons_of_mem e he'))
          by_cases htgt : schedTarget u n e = some (i, c)
          · have hrceq : rc = (i, c) := by
              rw [hrc] at htgt
              exact Option.some.inj htgt
            have hz : pyInt e.2.2 = z := hall e (List.mem_cons_self e t) htgt
            have hm1entry : m1.entry i c = z := by
              rw [hm1, hrceq]
              rw [hz] at *
              exact ScheduleMat.write_entry_same m0 i c z
            constructor
            · intro _
              by_cases hex : ∃ e' ∈ t, schedTarget u n e' = some (i, c)
              · exact ihres.1 hex
              · push_neg at hex
                rw [ihres.2 hex, hm1entry]
            · intro hnone
              exact absurd htgt (hnone e (List.mem_cons_self e t))
          · have hm1entry : m1.entry i c = m0.entry i c := by
              rw [hm1]
              apply ScheduleMat.write_entry_other
              rintro ⟨rfl, rfl⟩
              apply htgt
              rw [hrc]
            constructor
            · rintro ⟨e', he', ht'⟩
              rcases List.mem_cons.mp he' with rfl | he'
              · exact absurd ht' htgt
              · exact ihres.1 ⟨e', he', ht'⟩
            · intro hnone
              rw [ihres.2 (fun e' he' => hnone e' (List.mem_cons_of_mem e he')),
                hm1entry]

/-- Every parsed entry comes from a dictionary key. -/
theorem parseEntries_forward :
    ∀ (l : List (String × ℚ)) (es : List (String × ℕ × ℚ)),
      parseEntries l = some es →
      ∀ e ∈ es, ∃ kv ∈ l,
        parseScheduleVar kv.1 = some (e.1, e.2.1) ∧ kv.2 = e.2.2 := by
  intro l
  induction l with
  | nil =>
      intro es h e he
      injection h with h
      rw [← h] at he
      exact absurd he (List.not_mem_nil e)
  | cons kv t ih =>
      intro es h e he
      rw [parseEntries] at h
      cases hp : parseScheduleVar kv.1 with
      | none => rw [hp] at h; exact Option.noConfusion h
      | some ud =>
          rw [hp] at h
          cases ht : parseEntries t with
          | none => rw [ht] at h; exact Option.noConfusion h
          | some es' =>
              rw [ht] at h
              injection h with h
              rw [← h] at he
              rcases List.mem_cons.mp he with rfl | he'
              · exact ⟨kv, List.mem_cons_self kv t, by rw [hp], rfl⟩
              · obtain ⟨kv', hkv', hkv'2⟩ := ih es' ht e he'
                exact ⟨kv', List.mem_cons_of_mem kv hkv', hkv'2⟩

/-- Every dictionary key yields a parsed entry. -/
theorem parseEntries_backward :
    ∀ (l : List (String × ℚ)) (es : List (String × ℕ × ℚ)),
      parseEntries l = some es →
      ∀ kv ∈ l, ∃ e ∈ es,
        parseScheduleVar kv.1 = some (e.1, e.2.1) ∧ kv.2 = e.2.2 := by
  intro l
  induction l with
  | nil =>
      intro es h kv hkv
      exact absurd hkv (List.not_mem_nil kv)
  | cons kv0 t ih =>
      intro es h kv hkv
      rw [parseEntries] at h
      cases hp : parseScheduleVar kv0.1 with
      | none => rw [hp] at h; exact Option.noConfusion h
      | some ud =>
          rw [hp] at h
          cases ht : parseEntries t with
          | none => rw [ht] at h; exact Option.noConfusion h
          | some es' =>
              rw [ht] at h
              injection h with h
              rcases List.mem_cons.mp hkv with rfl | hkv'
              · refine ⟨(ud.1, ud.2, kv.2), ?_, by rw [hp], rfl⟩
                rw [← h]
                exact List.mem_cons_self _ _
              · obtain ⟨e, he, he2⟩ := ih es' ht kv hkv'
                refine ⟨e, ?_, he2⟩
                rw [← h]
                exact List.mem_cons_of_mem _ he



/-- The schedule half of the availability invariant: if every
`'Schedule'` key of the dictionary that parses to a day targeting row `i`
and column `d − 1` carries the value 0 — and the canonical key for
`(uid, d)` is present — then the built matrix has 0 at `(i, d − 1)`. -/
theorem build_entry_zero (people : List Person) (s : List (String × ℚ))
    (uid : String) (d i : ℕ) (m : ScheduleMat)
    (hd : 1 ≤ d)
    (hidx : (people.map Person.uid).indexOf? uid = some i)
    (hparse : parseScheduleVar (xVarName uid d) = some (uid, d))
    (hcanon : ∃ v, (xVarName uid d, v) ∈ s)
    (hzero : ∀ kv ∈ s, strContains kv.1 "Schedule" = true →
       ∀ ud : String × ℕ, parseScheduleVar kv.1 = some ud →
         1 ≤ ud.2 ∧ ((people.map Person.uid).indexOf? ud.1 = some i → ud.2 = d →
            pyInt kv.2 = 0))
    (hbuild : buildFromSolutionVariables people (some s) = some m) :
    m.entry i (d - 1) = 0 := by
  rw [buildFromSolutionVariables] at hbuild
  cases hpe : parseEntries (s.filter fun kv => strContains kv.1 "Schedule") with
  | none => rw [hpe] at hbuild; exact Option.noConfusion hbuild
  | some entries =>
      rw [hpe] at hbuild
      try dsimp only at hbuild
      have hne : people.isEmpty = false := by
        cases hp : people with
        | nil =>
            rw [hp] at hidx
            exact absurd hidx (by simp [List.indexOf?])
        | cons p ps => rfl
      rw [hne] at hbuild
      simp only [Bool.false_eq_true, if_false] at hbuild
      set n := entries.foldl (fun m e => max m e.2.1) 0 with hn
      have hall : ∀ e ∈ entries,
          schedTarget (people.map Person.uid) n e = some (i, d - 1) →
          pyInt e.2.2 = 0 := by
        intro e he htgt
        obtain ⟨kv, hkvmem, hkvp, hkvv⟩ :=
          parseEntries_forward _ entries hpe e he
        obtain ⟨hkvs, hkvc⟩ := List.mem_filter.mp hkvmem
        obtain ⟨hday, himpl⟩ := hzero kv hkvs hkvc (e.1, e.2.1) hkvp
        rw [schedTarget] at htgt
        cases hrow : (people.map Person.uid).indexOf? e.1 with
        | none => rw [hrow] at htgt; exact Option.noConfusion htgt
        | some row =>
            rw [hrow] at htgt
            simp only [Option.map_some', Option.some.injEq, Prod.mk.injEq] at htgt
            obtain ⟨hrowi, hcol⟩ := htgt
            rw [if_neg (by omega : ¬ e.2.1 = 0)] at hcol
            have hde : e.2.1 = d := by omega
            rw [← hkvv]
            exact himpl (by rw [hrowi] at hrow; exact hrow) hde
      have hex : ∃ e ∈ entries,
          schedTarget (people.map Person.uid) n e = some (i, d - 1) := by
        obtain ⟨v, hv⟩ := hcanon
        have hmemf : (xVarName uid d, v) ∈
            s.filter (fun kv => strContains kv.1 "Schedule") :=
          List.mem_filter.mpr ⟨hv, strContains_xVarName uid d⟩
        obtain ⟨e, he, hep, hev⟩ :=
          parseEntries_backward _ entries hpe (xVarName uid d, v) hmemf
        refine ⟨e, he, ?_⟩
        dsimp only at hep
        rw [hparse] at hep
        simp only [Option.some.injEq, Prod.mk.injEq] at hep
        rw [schedTarget, ← hep.1, ← hep.2, hidx]
        simp only [Option.map_some', Option.some.injEq, Prod.mk.injEq]
        exact ⟨trivial, by rw [if_neg (by omega : ¬ d = 0)]⟩
      exact (applyWrites_entry (people.map Person.uid) n i (d - 1) 0 entries
        ⟨people.length, n, fun _ _ => -1⟩ m hbuild hall).1 hex



/-- A recorded feasible solution is the extraction of either the oracle's
assignment (integral case) or the rounded assignment, the latter only
when no constraint is violated by it. -/
theorem branch_feasible_solution_extract (lp : LpProblem)
    (opts : List BranchingOption) (res : OracleResult) (pick : ℕ)
    (br : BranchResult) (s : List (String × ℚ))
    (hres : res.status = .optimal)
    (hok : branch lp opts res pick = .ok br)
    (hfs : br.feasible_solution = some s) :
    ∃ a', s = extractSolution lp a' ∧
      (a' = res.assign ∨ (a' = roundedAssign res.assign ∧
        ∀ nc ∈ lp.constraints, violatedB nc.con a' = false)) := by
  obtain ⟨-, -, hfs'⟩ := branch_ok_fields lp opts res pick br hres hok
  rw [hfs] at hfs'
  unfold branchFeasibility at hfs'
  cases hint : isIntegral lp res.assign with
  | true =>
      rw [hint] at hfs'
      simp only [if_true] at hfs'
      injection hfs' with hfs'
      exact ⟨res.assign, hfs', Or.inl rfl⟩
  | false =>
      rw [hint] at hfs'
      simp only [Bool.false_eq_true, if_false] at hfs'
      cases hany : lp.constraints.any
          (fun nc => violatedB nc.con (roundedAssign res.assign)) with
      | true =>
          rw [hany] at hfs'
          simp only [if_true] at hfs'
          exact Option.noConfusion hfs'
      | false =>
          rw [hany] at hfs'
          simp only [Bool.false_eq_true, if_false] at hfs'
          injection hfs' with hfs'
          refine ⟨roundedAssign res.assign, hfs', Or.inr ⟨rfl, ?_⟩⟩
          intro nc hnc
          have := List.any_eq_false.mp hany nc hnc
          simpa using this

/-- The availability constraint's stored expression evaluates to the
variable's value. -/
theorem availCon_value (uid : String) (d : ℕ) (a : String → ℚ) :
    (availCon uid d).value a = a (xVarName uid d) := by
  show qAdd (List.foldl (fun acc t => qAdd acc (qMul t.2 (a t.1))) 0
    [(xVarName uid d, 1)]) 0 = a (xVarName uid d)
  simp only [List.foldl_cons, List.foldl_nil]
  rw [qAdd_eq, qAdd_eq, qMul_eq]
  ring

/-- The availability constraint's left-hand side is the variable's
value. -/
theorem availCon_lhs (uid : String) (d : ℕ) (a : String → ℚ) :
    (availCon uid d).lhs a = a (xVarName uid d) := by
  show List.foldl (fun acc t => qAdd acc (qMul t.2 (a t.1))) 0
    [(xVarName uid d, 1)] = a (xVarName uid d)
  simp only [List.foldl_cons, List.foldl_nil]
  rw [qAdd_eq, qMul_eq]
  ring

/-- The availability constraint's right-hand side is 0. -/
theorem availCon_rhs (uid : String) (d : ℕ) : (availCon uid d).rhs = 0 := by
  show qNeg 0 = 0
  rw [qNeg_eq, neg_zero]

/-- The rounded value of any variable is 0 or 1. -/
theorem roundVal_cases (q : ℚ) : roundVal q = 0 ∨ roundVal q = 1 := by
  unfold roundVal
  by_cases h : qLeB q (mkRat 1 2) = true
  · rw [if_pos h]
    exact Or.inl rfl
  · rw [if_neg h]
    exact Or.inr rfl

/-- **C7.**  For a person `p` unavailable on day `d` — i.e. the node's LP
contains the availability constraint `x[p,d] ≤ 0` — every feasible
solution `branch` records assigns 0 to `Schedule_{p}_{d}` (both on the
integral path, using the oracle's feasibility and the `[0,1]` variable
bounds, and on the rounding path, where a rounded 1 would violate the
availability constraint), and the schedule built from that solution has 0
(never 1) at `p`'s row and day `d`'s column. -/
theorem c7_unavailable_day_zero (lp : LpProblem) (opts : List BranchingOption)
    (res : OracleResult) (pick : ℕ) (br : BranchResult)
    (people : List Person) (s : List (String × ℚ))
    (uid : String) (d i : ℕ)
    (hA : ∃ nm, (⟨nm, availCon uid d⟩ : NamedCon) ∈ lp.constraints)
    (hres : res.status = .optimal)
    (hbox : ∀ v, 0 ≤ res.assign v)
    (hsat : ∀ nc ∈ lp.constraints, nc.con.sense = LpSense.le →
       nc.con.value res.assign ≤ 0)
    (hok : branch lp opts res pick = .ok br)
    (hfs : br.feasible_solution = some s)
    (hd : 1 ≤ d)
    (hidx : (people.map Person.uid).indexOf? uid = some i)
    (hparse : parseScheduleVar (xVarName uid d) = some (uid, d))
    (honly : ∀ name ∈ lp.varNames, strContains name "Schedule" = true →
       ∀ ud : String × ℕ, parseScheduleVar name = some ud →
         1 ≤ ud.2 ∧ ((people.map Person.uid).indexOf? ud.1 = some i → ud.2 = d →
            name = xVarName uid d)) :
    lookupA s (xVarName uid d) = some 0 ∧
    ∀ m, buildFromSolutionVariables people (some s) = some m →
      m.entry i (d - 1) = 0 := by
  obtain ⟨a', hs, hcase⟩ :=
    branch_feasible_solution_extract lp opts res pick br s hres hok hfs
  obtain ⟨nm, hnm⟩ := hA
  have hxmem : xVarName uid d ∈ lp.varNames :=
    mem_varNames_of_con lp ⟨nm, availCon uid d⟩ (xVarName uid d) 1 hnm
      (by simp [availCon])
  have hzero : a' (xVarName uid d) = 0 := by
    rcases hcase with rfl | ⟨rfl, hnov⟩
    · have hle : (availCon uid d).value res.assign ≤ 0 :=
        hsat ⟨nm, availCon uid d⟩ hnm rfl
      rw [availCon_value] at hle
      exact le_antisymm hle (hbox _)
    · have hnv := hnov ⟨nm, availCon uid d⟩ hnm
      have hnlt : ¬ ((availCon uid d).sense = LpSense.le ∧
          (availCon uid d).rhs <
            (availCon uid d).lhs (roundedAssign res.assign)) := by
        intro hcontra
        have hvt := (violatedB_iff (availCon uid d) (roundedAssign res.assign)).mpr
          (Or.inl hcontra)
        rw [hnv] at hvt
        exact Bool.noConfusion hvt
      have hle : (availCon uid d).lhs (roundedAssign res.assign) ≤
          (availCon uid d).rhs := by
        by_contra hgt
        exact hnlt ⟨rfl, lt_of_not_le hgt⟩
      rw [availCon_lhs, availCon_rhs] at hle
      rcases roundVal_cases (res.assign (xVarName uid d)) with h0 | h1
      · exact h0
      · exfalso
        rw [show roundedAssign res.assign (xVarName uid d) =
            roundVal (res.assign (xVarName uid d)) from rfl, h1] at hle
        norm_num at hle
  subst hs
  refine ⟨?_, ?_⟩
  · rw [lookupA_extractSolution lp a' _ hxmem, hzero]
  · intro m hbuild
    apply build_entry_zero people _ uid d i m hd hidx hparse
    · exact ⟨a' (xVarName uid d),
        (mem_extractSolution lp a' _).mpr ⟨hxmem, rfl⟩⟩
    · intro kv hkv hc ud hud
      obtain ⟨hkmem, hkval⟩ := (mem_extractSolution lp a' kv).mp hkv
      obtain ⟨h1, h2⟩ := honly kv.1 hkmem hc ud hud
      refine ⟨h1, fun hri hdd => ?_⟩
      rw [hkval, h2 hri hdd, hzero]
      rfl
    · exact hbuild



/-- Witness for `c7_unavailable_day_zero`: person `A` unavailable on day 1;
the recorded solution and the built schedule both assign 0 there. -/
theorem c7_witness :
    lookupA sC7 (xVarName "A" 1) = some 0 ∧ mC7.entry 0 (1 - 1) = 0 := by
  have h := c7_unavailable_day_zero lpC7 (rootOptions peopleC1 [] 1) resC7 0
    brC7 peopleC1 sC7 "A" 1 0
    ⟨CName.named "A can\x27t work on day 1.", by decide⟩
    rfl (fun _ => le_refl 0) (by decide) rfl (by decide)
    (by decide) (by decide) (by decide) (by decide)
  exact ⟨h.1, h.2 mC7 rfl⟩


end OfficeScheduler
